import Mathlib

/-!
Shallow embedding of the genji document database (tables, indexes, sequences,
expressions, streams, projection masks) used to check the specification
claims against the source.

Modelling conventions:
- Go machine integers (int64) are modelled as Lean Int; the operations the
  claims touch (sequence arithmetic) never overflow in the scenarios proved.
- Fallible Go functions returning (T, error) are modelled as Except.
- Key-value state mutated inside a transaction is passed explicitly; an
  operation that returns an error corresponds to a transaction the caller
  rolls back, so the pre-state is kept in that case.
- Paths are modelled as single field names (one-fragment paths); the claims
  under study do not depend on deeper traversal.
-/

namespace Genji

/-- Document value: tagged union, restricted to the variants the claims
exercise (Null, Bool, Integer, Text). -/
inductive Value
  | vnull
  | vbool (b : Bool)
  | vint (n : Int)
  | vtext (s : String)
deriving DecidableEq, Repr

/-- Type tag of a value (document.ValueType). -/
inductive ValueType
  | tnull
  | tbool
  | tint
  | ttext
deriving DecidableEq, Repr

def Value.typeOf : Value → ValueType
  | .vnull => .tnull
  | .vbool _ => .tbool
  | .vint _ => .tint
  | .vtext _ => .ttext

/-- A document is an ordered sequence of (field name, value) pairs. -/
def Doc := List (String × Value)
deriving DecidableEq, Repr

/-- Document.GetByField: first field with the given name, none when absent
(ErrFieldNotFound). -/
def getByField (d : Doc) (f : String) : Option Value :=
  (List.find? (fun e => e.1 = f) d).map (fun e => e.2)

/-- FieldBuffer.Replace: replaces the first field with the given name,
keeping insertion order. -/
def replaceField (d : Doc) (f : String) (v : Value) : Doc :=
  match d with
  | [] => []
  | e :: rest => if e.1 = f then (f, v) :: rest else e :: replaceField rest f v

/-- Modelled from the spec: Value.IsTruthy is not under src/. A value is
truthy when it is neither Null nor the zero value of its type; the Filter
spec row says True passes and Null and False drop. -/
def Value.isTruthy : Value → Bool
  | .vnull => false
  | .vbool b => b
  | .vint n => n != 0
  | .vtext s => s != ""

/-- Modelled from the spec: Value.IsEqual is not under src/. Values of the
same type compare structurally; Null equals only Null; values of different
types are unequal. -/
def Value.isEqual : Value → Value → Bool
  | .vnull, .vnull => true
  | .vbool a, .vbool b => a = b
  | .vint a, .vint b => a = b
  | .vtext a, .vtext b => a = b
  | _, _ => false

/-- Modelled from the spec: ordering of values, used by the comparison
operators. Within a type domain values are ordered mathematically or
lexicographically; across domains by type tag, as the untyped key codec
groups by type tag. -/
def Value.tagRank : Value → Nat
  | .vnull => 0
  | .vbool _ => 1
  | .vint _ => 2
  | .vtext _ => 3

/-- Modelled from the spec: strict order on values (same type: natural
order; different types: tag rank). -/
def Value.lt : Value → Value → Bool
  | .vbool a, .vbool b => !a && b
  | .vint a, .vint b => a < b
  | .vtext a, .vtext b => a < b
  | a, b => a.tagRank < b.tagRank

/-- Equality on Except results is decidable when both components are. -/
instance instDecEqExcept {ε α : Type} [DecidableEq ε] [DecidableEq α] :
    DecidableEq (Except ε α) := fun x y =>
  match x, y with
  | .error a, .error b =>
    if h : a = b then .isTrue (by rw [h]) else .isFalse (by simp [h])
  | .ok a, .ok b =>
    if h : a = b then .isTrue (by rw [h]) else .isFalse (by simp [h])
  | .error _, .ok _ => .isFalse (by simp)
  | .ok _, .error _ => .isFalse (by simp)

/-- Clamp of an integer to a closed interval. -/
def clampTo (lo hi x : Int) : Int :=
  if x < lo then lo else if hi < x then hi else x

/-! ## Expressions (sql/query/expr): comparison operators, IS, AND, field selectors -/

/-- Comparison token of a cmpOp (scanner.EQ .. scanner.LTE). -/
inductive CmpTok
  | eq
  | neq
  | gt
  | gte
  | lt
  | lte
deriving DecidableEq, Repr

/-- cmpOp.compare dispatch: IsEqual / IsNotEqual / IsGreaterThan / ... built
on the modelled value order. -/
def cmpCompare (t : CmpTok) (l r : Value) : Bool :=
  match t with
  | .eq => l.isEqual r
  | .neq => !(l.isEqual r)
  | .gt => Value.lt r l
  | .gte => !(Value.lt l r)
  | .lt => Value.lt l r
  | .lte => !(Value.lt r l)

/-- Evaluation errors surfaced by expressions. -/
inductive EvalErr
  | fieldNotFound
deriving DecidableEq, Repr

/-- Expression tree: literal, single-fragment field selector, comparison,
IS, AND. -/
inductive Expr
  | lit (v : Value)
  | field (name : String)
  | cmp (t : CmpTok) (a b : Expr)
  | isOp (a b : Expr)
  | andOp (a b : Expr)
deriving Repr

/-- EvalStack: evaluation context; only the current document matters here. -/
structure EvalStack where
  doc : Option Doc

/-- Modelled from the spec: the AND operator source is not under src/.
Three-valued logic: AND with a Null yields Null unless the other operand is
False (then False); otherwise the conjunction of the truthiness of both. -/
def andValues (a b : Value) : Value :=
  if a = .vnull then
    if b ≠ .vnull && !b.isTruthy then .vbool false else .vnull
  else if b = .vnull then
    if !a.isTruthy then .vbool false else .vnull
  else .vbool (a.isTruthy && b.isTruthy)

/-- Expression evaluation.
lit: LiteralValue.Eval. field: FieldSelector.Eval with a one-chunk path
(document missing from the stack fails ErrFieldNotFound; an absent field
yields Null). cmp: cmpOp.Eval (either operand Null yields Null, otherwise
the comparison result). isOp: IsOperator.Eval (IsEqual as a boolean).
andOp: see andValues. -/
def evalExpr : Expr → EvalStack → Except EvalErr Value
  | .lit v, _ => .ok v
  | .field name, stack =>
    match stack.doc with
    | none => .error .fieldNotFound
    | some d =>
      match getByField d name with
      | none => .ok .vnull
      | some v => .ok v
  | .cmp t a b, stack => do
    let v1 ← evalExpr a stack
    let v2 ← evalExpr b stack
    if v1.typeOf = .tnull ∨ v2.typeOf = .tnull then
      return .vnull
    else if cmpCompare t v1 v2 then
      return .vbool true
    else
      return .vbool false
  | .isOp a b, stack => do
    let v1 ← evalExpr a stack
    let v2 ← evalExpr b stack
    if v1.isEqual v2 then
      return .vbool true
    else
      return .vbool false
  | .andOp a b, stack => do
    let v1 ← evalExpr a stack
    let v2 ← evalExpr b stack
    return andValues v1 v2

/-! ## Sequences (internal/database/sequence.go) -/

/-- SequenceInfo: persistent configuration of a sequence. -/
structure SequenceInfo where
  incrementBy : Int
  min : Int
  max : Int
  start : Int
  cache : Nat
  cycle : Bool
deriving Repr

/-- In-memory sequence state: last issued value and number of values issued
from the current lease. -/
structure SeqState where
  currentValue : Option Int
  cached : Nat
deriving DecidableEq, Repr

/-- Errors returned by Sequence.Next. -/
inductive SeqErr
  | notWritable
  | reachedMin
  | reachedMax
deriving DecidableEq, Repr

/-- Result of one Sequence.Next call: the issued value, the new in-memory
state, and the lease value persisted by SetLease (none when persistence was
not touched). -/
structure NextResult where
  value : Int
  state : SeqState
  persisted : Option Int
deriving DecidableEq, Repr

/-- Sequence.Next. Candidate is current + IncrementBy, or Start on the
first call; bounds are checked sequentially (below Min wraps to Max or
fails, then above Max wraps to Min or fails); if values remain in the cache
the call returns without persisting, otherwise a new lease is computed and
persisted and the cached count is reset. The candidate (newValue before
the bounds check) is current + IncrementBy, or Start on the first call. -/
def seqCandidate (info : SequenceInfo) (s : SeqState) : Int :=
  match s.currentValue with
  | none => info.start
  | some c => c + info.incrementBy

/-- Sequence.Next, continued: see seqCandidate for the candidate value. -/
def seqNext (info : SequenceInfo) (writable : Bool) (s : SeqState) :
    Except SeqErr NextResult :=
  if !writable then .error .notWritable
  else
    let v0 : Int := seqCandidate info s
    if v0 < info.min ∧ info.cycle = false then .error .reachedMin
    else
      let v1 : Int := if v0 < info.min then info.max else v0
      if info.max < v1 ∧ info.cycle = false then .error .reachedMax
      else
        let v2 : Int := if info.max < v1 then info.min else v1
        let cached1 := s.cached + 1
        if s.currentValue.isSome ∧ cached1 ≤ info.cache then
          .ok ⟨v2, ⟨some v2, cached1⟩, none⟩
        else
          let cached2 := if s.currentValue.isSome then 1 else cached1
          let lease : Int :=
            if info.incrementBy > 0 then
              let l := v2 + (info.cache : Int) - 1
              if l > info.max then info.max else l
            else
              let l := v2 - (info.cache : Int) + 1
              if l < info.min then info.min else l
          .ok ⟨v2, ⟨some v2, cached2⟩, some lease⟩

/-- Runs n consecutive Next calls on a writable transaction, collecting the
issued values and the persisted-lease flags. -/
def seqRun (info : SequenceInfo) : Nat → SeqState →
    Except SeqErr (List (Int × Bool) × SeqState)
  | 0, s => .ok ([], s)
  | n + 1, s =>
    match seqNext info true s with
    | .error e => .error e
    | .ok r =>
      match seqRun info n r.state with
      | .error e => .error e
      | .ok (rest, sEnd) => .ok ((r.value, r.persisted.isSome) :: rest, sEnd)

/-! ## Streams (document/iterator.go) -/

/-- Errors circulating through stream iteration. streamClosed is the
ErrStreamClosed sentinel; evalFailure wraps an expression evaluation error
surfaced by a filter predicate; failure is any other caller error. -/
inductive EErr
  | streamClosed
  | evalFailure (e : EvalErr)
  | failure (code : Nat)
deriving DecidableEq, Repr

/-- Stream operators used by the claims. filter wraps Stream.Filter with a
predicate; limit wraps Stream.Limit with its per-Iterate counter closure. -/
inductive SOp
  | filter (p : Doc → Except EErr Bool)
  | limit (n : Nat)

/-- One call of the closure produced by a StreamOperator: takes the closure
state (the limit counter; unused by filter) and a document, returns the new
state and either an error, nothing (document dropped), or a document to
pass on. -/
def SOp.run : SOp → Nat → Doc → Nat × Except EErr (Option Doc)
  | .filter p, c, d =>
    match p d with
    | .error e => (c, .error e)
    | .ok true => (c, .ok (some d))
    | .ok false => (c, .ok none)
  | .limit n, c, d =>
    if c < n then (c + 1, .ok (some d)) else (c, .error .streamClosed)

/-- A document.Stream: either empty (nil iterator), a base iterator over a
document list (NewStream(NewIterator(...)), op nil), or a Pipe of a
previous stream with an operator. -/
inductive GStream
  | empty
  | base (docs : List Doc)
  | pipe (prev : GStream) (op : SOp)

/-- documentsIterator.Iterate with an explicit callback state. -/
def iterList {σ : Type} : List Doc → (Doc → σ → σ × Except EErr Unit) →
    σ → σ × Except EErr Unit
  | [], _, s => (s, .ok ())
  | d :: ds, fn, s =>
    match fn d s with
    | (s1, .ok ()) => iterList ds fn s1
    | (s1, .error e) => (s1, .error e)

/-- The callback Stream.Iterate hands to its inner iterator at a pipe
node: the operator closure is applied first (an error stops the iteration,
a nil document is skipped), then the outer callback runs. -/
def pipeCB {σ : Type} (op : SOp) (fn : Doc → σ → σ × Except EErr Unit) :
    Doc → (Nat × σ) → (Nat × σ) × Except EErr Unit :=
  fun d cs =>
    match SOp.run op cs.1 d with
    | (c1, .error e) => ((c1, cs.2), .error e)
    | (c1, .ok none) => ((c1, cs.2), .ok ())
    | (c1, .ok (some d1)) =>
      match fn d1 cs.2 with
      | (s1, u) => ((c1, s1), u)

/-- The conversion Stream.Iterate applies to the result of the inner
iteration when an operator is present: ErrStreamClosed becomes nil. -/
def swallowClosed : Except EErr Unit → Except EErr Unit
  | .error .streamClosed => .ok ()
  | u => u

/-- Stream.Iterate with an explicit callback state. At a pipe node a fresh
operator closure is created (counter 0), the callback is wrapped as in the
source (pipeCB), and an ErrStreamClosed result of the inner iteration is
converted to nil (swallowClosed). A base stream has a nil op and performs
no such conversion. -/
def GStream.iter : GStream → {σ : Type} → (Doc → σ → σ × Except EErr Unit) →
    σ → σ × Except EErr Unit
  | .empty, _, _, s => (s, .ok ())
  | .base docs, _, fn, s => iterList docs fn s
  | .pipe prev op, _, fn, s =>
    let r := GStream.iter prev (pipeCB op fn) (0, s)
    (r.1.2, swallowClosed r.2)

/-- Stream.Iterate with a plain callback, as called by consumers. -/
def GStream.iterate (s : GStream) (fn : Doc → Except EErr Unit) :
    Except EErr Unit :=
  (GStream.iter s (fun d _ => ((), fn d)) ()).2

/-- whereClause (sql/query): evaluates the expression with the document on
the stack and keeps the document when the result is truthy; evaluation
errors interrupt the stream. -/
def whereClause (e : Expr) (d : Doc) : Except EErr Bool :=
  match evalExpr e ⟨some d⟩ with
  | .error er => .error (.evalFailure er)
  | .ok v => .ok v.isTruthy

/-- Stream.Filter applied to a whereClause predicate. -/
def filterOf (e : Expr) : SOp :=
  .filter (whereClause e)

/-! ## Tables, constraints, keys and indexes (database/table.go) -/

/-- Modelled from the spec: the FieldConstraint struct definition is not
under src/ (only its uses). Path; optional declared type; primary-key and
not-null flags; optional default value (the parser stores a literal
document value). -/
structure FieldConstraint where
  path : String
  type? : Option ValueType
  isPrimaryKey : Bool
  isNotNull : Bool
  defaultValue : Option Value
deriving DecidableEq, Repr

/-- Table configuration: read-only flag and the declared constraints. -/
structure TableInfo where
  readOnly : Bool
  fieldConstraints : List FieldConstraint
deriving DecidableEq, Repr

/-- Modelled from the spec: TableInfo.GetPrimaryKey is not under src/; a
table has at most one primary key, so the first constraint flagged as such
is returned. -/
def TableInfo.getPrimaryKey (info : TableInfo) : Option FieldConstraint :=
  info.fieldConstraints.find? (fun c => c.isPrimaryKey)

/-- Errors of the table operations. -/
inductive DbErr
  | readOnlyTable
  | notNull
  | typeMismatch
  | primaryKeyMissing
  | duplicateDocument
  | documentNotFound
  | duplicateKey
  | fieldNotFound
deriving DecidableEq, Repr

/-- Modelled from the spec: Value.CastAs is not under src/; these parse
helpers support the text-to-integer cast. -/
def digitsAux : List Char → Nat → Option Nat
  | [], acc => some acc
  | c :: rest, acc =>
    if c.isDigit then digitsAux rest (acc * 10 + (c.toNat - 48)) else none

/-- Parses a non-empty run of decimal digits. -/
def digitsToNat (l : List Char) : Option Nat :=
  if l.isEmpty then none else digitsAux l 0

/-- Parses an optionally signed decimal integer. -/
def textToInt (s : String) : Option Int :=
  match s.toList with
  | '-' :: rest => (digitsToNat rest).map (fun n => -(n : Int))
  | l => (digitsToNat l).map (fun n => (n : Int))

/-- Modelled from the spec, continued: the cast itself. A value of the
declared type is kept; numeric text casts to integer; anything else fails
(for example text foo to integer). -/
def castAs (v : Value) (t : ValueType) : Option Value :=
  if v.typeOf = t then some v
  else
    match v, t with
    | .vtext s, .tint => (textToInt s).map (fun n => Value.vint n)
    | _, _ => none

/-- validateConstraint for a one-fragment path: the parent is the root
document. An absent field fails NotNull when required and is otherwise left
alone; a present Null fails NotNull when required; with a declared type the
value is cast and replaced in the buffer, a failed cast being a type
mismatch. The declared default value is never consulted. -/
def validateConstraint (d : Doc) (c : FieldConstraint) : Except DbErr Doc :=
  match getByField d c.path with
  | none => if c.isNotNull then .error .notNull else .ok d
  | some v =>
    if v.typeOf = .tnull && c.isNotNull then .error .notNull
    else
      match c.type? with
      | none => .ok d
      | some t =>
        match castAs v t with
        | none => .error .typeMismatch
        | some v1 => .ok (replaceField d c.path v1)

/-- Folds validateConstraint over a constraint list, in order. -/
def validateList (d : Doc) : List FieldConstraint → Except DbErr Doc
  | [] => .ok d
  | c :: rest =>
    match validateConstraint d c with
    | .error e => .error e
    | .ok d1 => validateList d1 rest

/-- Table.ValidateConstraints: nothing to do without constraints; otherwise
the primary-key constraint is validated first, then every declared
constraint in declaration order. -/
def validateConstraints (info : TableInfo) (d : Doc) : Except DbErr Doc :=
  if info.fieldConstraints.isEmpty && (info.getPrimaryKey).isNone then .ok d
  else
    match
      (match info.getPrimaryKey with
       | none => .ok d
       | some pk => validateConstraint d pk : Except DbErr Doc) with
    | .error e => .error e
    | .ok d1 => validateList d1 info.fieldConstraints

/-- Modelled from the spec: the key codec package is not under src/; the
encoded forms are kept abstract. typed is the typed key codec (key.Append),
untyped the self-describing codec (key.AppendValue), docid a varint-encoded
store sequence number. -/
inductive StorageKey
  | typed (t : ValueType) (v : Value)
  | untyped (v : Value)
  | docid (n : Nat)
deriving DecidableEq, Repr

/-- Table.generateKey. With a primary key, the value is extracted from the
document (absence fails), and encoded with the typed codec when the
constraint declares a type, with the untyped codec otherwise. Without a
primary key the next store sequence value is used. Returns the key and the
new store sequence counter. -/
def generateKey (info : TableInfo) (seq : Nat) (d : Doc) :
    Except DbErr (StorageKey × Nat) :=
  match info.getPrimaryKey with
  | some pk =>
    match getByField d pk.path with
    | none => .error .primaryKeyMissing
    | some v =>
      if (pk.type?).isSome then .ok (.typed v.typeOf v, seq)
      else .ok (.untyped v, seq)
  | none => .ok (.docid (seq + 1), seq + 1)

/-- Index configuration: the indexed path and the unique flag. -/
structure IndexInfo where
  path : String
  unique : Bool
deriving DecidableEq, Repr

/-- An index with its entries, as (indexed value, document key) pairs in
insertion order. -/
structure IndexState where
  info : IndexInfo
  entries : List (Value × StorageKey)
deriving DecidableEq, Repr

/-- Modelled from the spec: the index package is not under src/. Index.Set
adds the pair; a unique index fails DuplicateKey when the value is already
present with a non-Null value (Null entries behave as non-unique). -/
def uniqueConflict (ix : IndexState) (v : Value) : Bool :=
  ix.info.unique && !(v.typeOf = .tnull) && ix.entries.any (fun e => e.1 = v)

/-- Modelled from the spec, continued: Index.Set adds the pair unless a
unique conflict exists. -/
def indexSet (ix : IndexState) (v : Value) (k : StorageKey) :
    Except DbErr IndexState :=
  if uniqueConflict ix v then
    .error .duplicateKey
  else
    .ok ⟨ix.info, ix.entries ++ [(v, k)]⟩

/-- Modelled from the spec: Index.Delete removes the (value, key) pair. -/
def indexDelete (ix : IndexState) (v : Value) (k : StorageKey) : IndexState :=
  ⟨ix.info, ix.entries.filter (fun e => !(e.1 = v && e.2 = k))⟩

/-- State of one table inside the transaction: configuration, the rows of
its store, its indexes, and the store sequence counter used for docids. -/
structure TableState where
  info : TableInfo
  rows : List (StorageKey × Doc)
  indexes : List IndexState
  seq : Nat
deriving DecidableEq, Repr

/-- Store.Get on the table store. -/
def storeGet (rows : List (StorageKey × Doc)) (k : StorageKey) : Option Doc :=
  (List.find? (fun e => e.1 = k) rows).map (fun e => e.2)

/-- Store.Put on the table store: replaces the value under an existing key,
appends otherwise. -/
def storePut (rows : List (StorageKey × Doc)) (k : StorageKey) (d : Doc) :
    List (StorageKey × Doc) :=
  if rows.any (fun e => e.1 = k) then
    rows.map (fun e => if e.1 = k then (k, d) else e)
  else
    rows ++ [(k, d)]

/-- The value a document holds at an indexed path, an absent path reading
as Null. -/
def pathValueOf (d : Doc) (p : String) : Value :=
  (getByField d p).getD .vnull

/-- Index loop of Table.Insert: for every index the indexed path is
resolved from the document (absence becoming Null) and the pair inserted;
ErrDuplicate aborts the whole insert as DuplicateDocument. -/
def insertIndexes (d : Doc) (k : StorageKey) :
    List IndexState → Except DbErr (List IndexState)
  | [] => .ok []
  | ix :: rest =>
    match indexSet ix (pathValueOf d ix.info.path) k with
    | .error _ => .error .duplicateDocument
    | .ok ix1 =>
      match insertIndexes d k rest with
      | .error e => .error e
      | .ok rest1 => .ok (ix1 :: rest1)

/-- Index loop of Table.Delete: the indexed value is resolved from the
stored document, an absent path surfacing its lookup error, and the entry
removed. -/
def deleteIndexes (d : Doc) (k : StorageKey) :
    List IndexState → Except DbErr (List IndexState)
  | [] => .ok []
  | ix :: rest =>
    match getByField d ix.info.path with
    | none => .error .fieldNotFound
    | some v =>
      match deleteIndexes d k rest with
      | .error e => .error e
      | .ok rest1 => .ok (indexDelete ix v k :: rest1)

/-- Second index loop of Table.replace: the indexed path is resolved from
the new document, an absent path skipping the index; Index.Set errors
surface unchanged. -/
def replaceIndexes (d : Doc) (k : StorageKey) :
    List IndexState → Except DbErr (List IndexState)
  | [] => .ok []
  | ix :: rest =>
    match getByField d ix.info.path with
    | none =>
      match replaceIndexes d k rest with
      | .error e => .error e
      | .ok rest1 => .ok (ix :: rest1)
    | some v =>
      match indexSet ix v k with
      | .error e => .error e
      | .ok ix1 =>
        match replaceIndexes d k rest with
        | .error e => .error e
        | .ok rest1 => .ok (ix1 :: rest1)

/-- Table.Insert: rejects read-only tables, validates constraints,
generates the key, requires the key to be absent from the store, stores the
encoded document and updates every index. An error leaves no state behind:
the caller rolls the transaction back. -/
def tableInsert (s : TableState) (d : Doc) :
    Except DbErr (StorageKey × TableState) :=
  if s.info.readOnly then .error .readOnlyTable
  else
    match validateConstraints s.info d with
    | .error e => .error e
    | .ok d1 =>
      match generateKey s.info s.seq d1 with
      | .error e => .error e
      | .ok (k, seq1) =>
        match storeGet s.rows k with
        | some _ => .error .duplicateDocument
        | none =>
          match insertIndexes d1 k s.indexes with
          | .error e => .error e
          | .ok idxs1 => .ok (k, ⟨s.info, storePut s.rows k d1, idxs1, seq1⟩)

/-- Table.Delete: rejects read-only tables, fetches the document, removes
the index entries then the payload. -/
def tableDelete (s : TableState) (k : StorageKey) : Except DbErr TableState :=
  if s.info.readOnly then .error .readOnlyTable
  else
    match storeGet s.rows k with
    | none => .error .documentNotFound
    | some d =>
      match deleteIndexes d k s.indexes with
      | .error e => .error e
      | .ok idxs1 =>
        .ok ⟨s.info, s.rows.filter (fun e => !(e.1 = k)), idxs1, s.seq⟩

/-- Table.Replace and Table.replace: rejects read-only tables, validates
constraints, requires the key to exist, removes the old index entries,
overwrites the payload and inserts the new index entries (an indexed path
absent from the new document being skipped). -/
def tableReplace (s : TableState) (k : StorageKey) (d : Doc) :
    Except DbErr TableState :=
  if s.info.readOnly then .error .readOnlyTable
  else
    match validateConstraints s.info d with
    | .error e => .error e
    | .ok d1 =>
      match storeGet s.rows k with
      | none => .error .documentNotFound
      | some old =>
        match deleteIndexes old k s.indexes with
        | .error e => .error e
        | .ok idxs1 =>
          match replaceIndexes d1 k idxs1 with
          | .error e => .error e
          | .ok idxs2 => .ok ⟨s.info, storePut s.rows k d1, idxs2, s.seq⟩

/-- One table operation. -/
inductive TableOp
  | ins (d : Doc)
  | rep (k : StorageKey) (d : Doc)
  | del (k : StorageKey)
deriving Repr

/-- Applies one operation; a failing operation is rolled back by the
caller, keeping the previous state. -/
def applyOp (s : TableState) : TableOp → TableState
  | .ins d =>
    match tableInsert s d with
    | .ok r => r.2
    | .error _ => s
  | .rep k d =>
    match tableReplace s k d with
    | .ok s1 => s1
    | .error _ => s
  | .del k =>
    match tableDelete s k with
    | .ok s1 => s1
    | .error _ => s

/-- Applies a sequence of operations. -/
def runOps : TableState → List TableOp → TableState
  | s, [] => s
  | s, op :: rest => runOps (applyOp s op) rest

/-- A fresh table with the given configuration and indexes. -/
def emptyTable (info : TableInfo) (idxInfos : List IndexInfo) : TableState :=
  ⟨info, [], idxInfos.map (fun i => ⟨i, []⟩), 0⟩

/-- The index consistency invariant as the specification states it: every
stored document has its (indexed value, key) pair in every index, and no
index entry refers to a key absent from the table. -/
def claimIndexInv (s : TableState) : Prop :=
  ∀ ix ∈ s.indexes,
    (∀ kd ∈ s.rows, (pathValueOf kd.2 ix.info.path, kd.1) ∈ ix.entries) ∧
    (∀ e ∈ ix.entries, ∃ kd ∈ s.rows, kd.1 = e.2)

instance (s : TableState) : Decidable (claimIndexInv s) := by
  unfold claimIndexInv
  infer_instance

/-- A strengthened representation invariant used to prove the claimed
index consistency: row keys are unique, each index has unique entry keys,
every row contributes its entry, and every entry points back to a row
whose indexed value it carries. -/
def StrongInv (s : TableState) : Prop :=
  (s.rows.map Prod.fst).Nodup ∧
  ∀ ix ∈ s.indexes,
    ((ix.entries.map Prod.snd).Nodup ∧
     (∀ kd ∈ s.rows,
        (pathValueOf kd.2 ix.info.path, kd.1) ∈ ix.entries) ∧
     (∀ e ∈ ix.entries, ∃ kd ∈ s.rows,
        e.2 = kd.1 ∧ e.1 = pathValueOf kd.2 ix.info.path))

instance (s : TableState) : Decidable (StrongInv s) := by
  unfold StrongInv
  infer_instance

/-! ## Projection mask (stream/project.go) -/

/-- A projected expression: a wildcard, a NamedExpr (field name is
ExprName), or any other expression (field name is its string form). -/
inductive PExpr
  | wildcard
  | named (name : String) (e : Expr)
  | anon (dname : String) (e : Expr)

/-- Environment of a MaskDocument: the source document, when any. -/
structure PEnv where
  doc : Option Doc

/-- MaskDocument.GetByField loop body, iterating the projected expressions
from last to first: a wildcard reads the field from the source document and
moves on when absent; a named or plain expression matching the requested
field evaluates it. -/
def maskGetAux : List PExpr → PEnv → String → Except EvalErr Value
  | [], _, _ => .error .fieldNotFound
  | .wildcard :: rest, env, field =>
    match env.doc with
    | none => maskGetAux rest env field
    | some d =>
      match getByField d field with
      | none => maskGetAux rest env field
      | some v => .ok v
  | .named n e :: rest, env, field =>
    if n = field then evalExpr e ⟨env.doc⟩ else maskGetAux rest env field
  | .anon n e :: rest, env, field =>
    if n = field then evalExpr e ⟨env.doc⟩ else maskGetAux rest env field

/-- MaskDocument.GetByField. -/
def maskGetByField (exprs : List PExpr) (env : PEnv) (field : String) :
    Except EvalErr Value :=
  maskGetAux exprs.reverse env field

/-- Wildcard expansion inside MaskDocument.Iterate: the source document is
iterated, fields already emitted being skipped and newly emitted fields
recorded. Returns the emitted pairs and the grown emitted set. -/
def wildEmit : Doc → List String → List (String × Value) × List String
  | [], seen => ([], seen)
  | (f, v) :: rest, seen =>
    if f ∈ seen then wildEmit rest seen
    else
      let r := wildEmit rest (f :: seen)
      ((f, v) :: r.1, r.2)

/-- MaskDocument.Iterate loop, from last to first expression, with the set
of field names already emitted. A wildcard with no source document ends the
iteration. A named or plain expression whose field was already emitted is
skipped; otherwise it is evaluated and emitted. -/
def maskIterAux : List PExpr → PEnv → List String →
    Except EvalErr (List (String × Value))
  | [], _, _ => .ok []
  | .wildcard :: rest, env, seen =>
    match env.doc with
    | none => .ok []
    | some d =>
      let r := wildEmit d seen
      (maskIterAux rest env r.2).map (fun l => r.1 ++ l)
  | .named n e :: rest, env, seen =>
    if n ∈ seen then maskIterAux rest env seen
    else do
      let v ← evalExpr e ⟨env.doc⟩
      let l ← maskIterAux rest env (n :: seen)
      return (n, v) :: l
  | .anon n e :: rest, env, seen =>
    if n ∈ seen then maskIterAux rest env seen
    else do
      let v ← evalExpr e ⟨env.doc⟩
      let l ← maskIterAux rest env (n :: seen)
      return (n, v) :: l

/-- MaskDocument.Iterate: the sequence of (field, value) pairs passed to
the callback. -/
def maskIterate (exprs : List PExpr) (env : PEnv) :
    Except EvalErr (List (String × Value)) :=
  maskIterAux exprs.reverse env []


/-- Whether an iteration result is anything other than the StreamClosed
sentinel. -/
def notClosedResult : Except EErr Unit → Bool
  | .error .streamClosed => false
  | _ => true

/-- Total evaluation of an expression against a document: with a document
on the stack, evalExpr never fails and computes this function (proved in
evalExpr_some). -/
def evalD : Expr → Doc → Value
  | .lit v, _ => v
  | .field n, d => (getByField d n).getD .vnull
  | .cmp t a b, d =>
    let v1 := evalD a d
    let v2 := evalD b d
    if v1.typeOf = .tnull ∨ v2.typeOf = .tnull then .vnull
    else if cmpCompare t v1 v2 then .vbool true else .vbool false
  | .isOp a b, d =>
    if (evalD a d).isEqual (evalD b d) then .vbool true else .vbool false
  | .andOp a b, d => andValues (evalD a d) (evalD b d)

/-! ## Theorems -/

/-- Helper: shape of a successful Sequence.Next call. The new current value
is the issued value; with a current value and room in the cache the call
does not persist and increments the cached count; past the cache it
persists and resets the count to 1; on the very first call it persists. -/
theorem seqNext_ok_shape (info : SequenceInfo) (s : SeqState) (r : NextResult)
    (h : seqNext info true s = .ok r) :
    r.state.currentValue = some r.value ∧
    (∀ v, s.currentValue = some v → s.cached + 1 ≤ info.cache →
      r.persisted = none ∧ r.state.cached = s.cached + 1) ∧
    (∀ v, s.currentValue = some v → ¬ (s.cached + 1 ≤ info.cache) →
      (r.persisted).isSome ∧ r.state.cached = 1) ∧
    (s.currentValue = none →
      (r.persisted).isSome ∧ r.state.cached = s.cached + 1) := by
  unfold seqNext at h
  simp only [Bool.not_true, Bool.false_eq_true, if_false] at h
  split_ifs at h
  all_goals injection h with h2
  all_goals subst h2
  all_goals refine ⟨rfl, ?_, ?_, ?_⟩ <;> intros <;> simp_all

/-- Helper: a successful Next call issues a value inside [Min, Max]. -/
theorem seqNext_ok_value_bounds (info : SequenceInfo) (s : SeqState)
    (r : NextResult) (hmm : info.min ≤ info.max)
    (h : seqNext info true s = .ok r) :
    info.min ≤ r.value ∧ r.value ≤ info.max := by
  unfold seqNext at h
  simp only [Bool.not_true, Bool.false_eq_true, if_false] at h
  split_ifs at h
  all_goals injection h with h2
  all_goals subst h2
  all_goals constructor <;> (dsimp only; omega)

/-- Helper: j successive successful Next calls that fit inside the current
lease never persist. -/
theorem seqRun_noPersist (info : SequenceInfo) :
    ∀ (j : Nat) (s : SeqState) (v : Int), s.currentValue = some v →
    s.cached + j ≤ info.cache →
    ∀ flags sEnd, seqRun info j s = .ok (flags, sEnd) →
    flags.countP (fun x => x.2) = 0 := by
  intro j
  induction j with
  | zero =>
    intro s v hcur hle flags sEnd h
    simp only [seqRun] at h
    injection h with h2
    obtain ⟨h31, h32⟩ := (Prod.mk.injEq _ _ _ _).mp h2
    subst h31
    rfl
  | succ n ih =>
    intro s v hcur hle flags sEnd h
    simp only [seqRun] at h
    cases hn : seqNext info true s with
    | error e => rw [hn] at h; exact absurd h (by simp)
    | ok r =>
      rw [hn] at h
      dsimp only at h
      cases hrest : seqRun info n r.state with
      | error e => rw [hrest] at h; exact absurd h (by simp)
      | ok p =>
        obtain ⟨rest, sE⟩ := p
        rw [hrest] at h
        injection h with h2
        obtain ⟨h31, h32⟩ := (Prod.mk.injEq _ _ _ _).mp h2
        subst h31
        subst h32
        obtain ⟨hcv, hnp, _, _⟩ := seqNext_ok_shape info s r hn
        obtain ⟨hpn, hcd⟩ := hnp v hcur (by omega)
        have := ih r.state r.value hcv (by omega) rest sE hrest
        simp [hpn, this]

/-- Helper: among k consecutive successful Next calls with k at most Cache,
starting from a well-formed state, persistence is touched at most once. -/
theorem seqRun_window (info : SequenceInfo) :
    ∀ (k : Nat) (s : SeqState), (s.currentValue = none → s.cached = 0) →
    k ≤ info.cache →
    ∀ flags sEnd, seqRun info k s = .ok (flags, sEnd) →
    flags.countP (fun x => x.2) ≤ 1 := by
  intro k
  induction k with
  | zero =>
    intro s hwf hk flags sEnd h
    simp only [seqRun] at h
    injection h with h2
    obtain ⟨h31, h32⟩ := (Prod.mk.injEq _ _ _ _).mp h2
    subst h31
    simp
  | succ n ih =>
    intro s hwf hk flags sEnd h
    simp only [seqRun] at h
    cases hn : seqNext info true s with
    | error e => rw [hn] at h; exact absurd h (by simp)
    | ok r =>
      rw [hn] at h
      dsimp only at h
      cases hrest : seqRun info n r.state with
      | error e => rw [hrest] at h; exact absurd h (by simp)
      | ok p =>
        obtain ⟨rest, sE⟩ := p
        rw [hrest] at h
        injection h with h2
        obtain ⟨h31, h32⟩ := (Prod.mk.injEq _ _ _ _).mp h2
        subst h31
        subst h32
        obtain ⟨hcv, hnp, hp1, hp2⟩ := seqNext_ok_shape info s r hn
        cases hcur : s.currentValue with
        | none =>
          obtain ⟨hps, hcd⟩ := hp2 hcur
          have hz := hwf hcur
          have h0 := seqRun_noPersist info n r.state r.value hcv
            (by omega) rest sE hrest
          simp [List.countP_cons, h0, hps]
        | some v =>
          by_cases hle : s.cached + 1 ≤ info.cache
          · obtain ⟨hps, hcd⟩ := hnp v hcur hle
            have h1 := ih r.state (by simp [hcv]) (by omega) rest sE hrest
            simp [List.countP_cons, hps]
            exact h1
          · obtain ⟨hps, hcd⟩ := hp1 v hcur hle
            have h0 := seqRun_noPersist info n r.state r.value hcv
              (by omega) rest sE hrest
            simp [List.countP_cons, h0, hps]

/-- Helper: a Next call that persists stores the lease end candidate plus
or minus (Cache - 1), clamped to [Min, Max]. -/
theorem seqNext_persist_lease (info : SequenceInfo) (s : SeqState)
    (r : NextResult) (hmm : info.min ≤ info.max) (hc1 : 1 ≤ info.cache)
    (hnc : ¬ (s.currentValue.isSome = true ∧ s.cached + 1 ≤ info.cache))
    (h : seqNext info true s = .ok r) :
    (0 < info.incrementBy →
      r.persisted = some (clampTo info.min info.max
        (r.value + ((info.cache : Int) - 1)))) ∧
    (info.incrementBy < 0 →
      r.persisted = some (clampTo info.min info.max
        (r.value - ((info.cache : Int) - 1)))) := by
  unfold seqNext at h
  simp only [Bool.not_true, Bool.false_eq_true, if_false] at h
  split_ifs at h
  all_goals injection h with h2
  all_goals subst h2
  all_goals first
    | exact absurd (by assumption) hnc
    | (refine ⟨?_, ?_⟩ <;> intro hinc <;> dsimp only <;>
        simp only [clampTo, Option.some.injEq] <;> split_ifs <;> omega)

/-- C5: Next computes candidate = current + IncrementBy (Start on the
first call); a candidate below Min fails sequence-exhausted without Cycle
and wraps to Max with it; a candidate above Max fails without Cycle and
wraps to Min with it; and the sequence INCREMENT BY 1 MINVALUE 1
MAXVALUE 3 CYCLE yields 1, 2, 3, 1 on four consecutive Next calls. -/
theorem c5_sequence_bounds_and_cycle (info : SequenceInfo) (s : SeqState) :
    (seqCandidate info s < info.min → info.cycle = false →
      seqNext info true s = .error .reachedMin) ∧
    (seqCandidate info s < info.min → info.cycle = true →
      ∃ r, seqNext info true s = .ok r ∧ r.value = info.max) ∧
    (info.min ≤ info.max → info.max < seqCandidate info s → info.cycle = false →
      seqNext info true s = .error .reachedMax) ∧
    (info.min ≤ info.max → info.max < seqCandidate info s → info.cycle = true →
      ∃ r, seqNext info true s = .ok r ∧ r.value = info.min) ∧
    ((seqRun ⟨1, 1, 3, 1, 1, true⟩ 4 ⟨none, 0⟩).map
        (fun p => p.1.map (fun x => x.1)) = .ok [1, 2, 3, 1]) := by
  refine ⟨?_, ?_, ?_, ?_, by rfl⟩
  · intro h1 h2
    simp [seqNext, h1, h2]
  · intro h1 h2
    simp [seqNext, h1, h2]
    split
    · exact ⟨_, rfl, rfl⟩
    · exact ⟨_, rfl, rfl⟩
  · intro h0 h1 h2
    have hn : ¬ (seqCandidate info s < info.min) := by omega
    simp [seqNext, hn, h1, h2]
  · intro h0 h1 h2
    have hn : ¬ (seqCandidate info s < info.min) := by omega
    simp [seqNext, hn, h1, h2]
    split
    · exact ⟨_, rfl, rfl⟩
    · exact ⟨_, rfl, rfl⟩

/-- Witness for C5 at concrete inputs. -/
theorem c5_sequence_bounds_and_cycle_witness :
    seqNext ⟨1, 1, 3, 1, 1, false⟩ true ⟨some 3, 1⟩ = .error .reachedMax ∧
    (∃ r, seqNext ⟨1, 1, 3, 1, 1, true⟩ true ⟨some 3, 1⟩ = .ok r ∧
      r.value = 1) ∧
    (seqRun ⟨1, 1, 3, 1, 1, true⟩ 4 ⟨none, 0⟩).map
        (fun p => p.1.map (fun x => x.1)) = .ok [1, 2, 3, 1] := by
  refine ⟨?_, ?_, (c5_sequence_bounds_and_cycle ⟨1, 1, 3, 1, 1, true⟩
    ⟨none, 0⟩).2.2.2.2⟩
  · exact (c5_sequence_bounds_and_cycle ⟨1, 1, 3, 1, 1, false⟩
      ⟨some 3, 1⟩).2.2.1 (by decide) (by decide) rfl
  · exact (c5_sequence_bounds_and_cycle ⟨1, 1, 3, 1, 1, true⟩
      ⟨some 3, 1⟩).2.2.2.1 (by decide) (by decide) rfl

/-- C6: with Cache = n, persistence is touched at most once among any n
consecutive successful Next calls; a call with a current value and room in
the cache returns without touching persistence, advancing the cached
count; otherwise the call persists candidate + (Cache-1)*sign(IncrementBy)
clamped to [Min, Max] and resets the cached count to 1. -/
theorem c6_sequence_lease_caching (info : SequenceInfo)
    (hmm : info.min ≤ info.max) (hc1 : 1 ≤ info.cache) :
    (∀ k s flags sEnd, (s.currentValue = none → s.cached = 0) →
      k ≤ info.cache → seqRun info k s = .ok (flags, sEnd) →
      flags.countP (fun x => x.2) ≤ 1) ∧
    (∀ s r v, s.currentValue = some v → s.cached + 1 ≤ info.cache →
      seqNext info true s = .ok r →
      r.persisted = none ∧ r.state.cached = s.cached + 1) ∧
    (∀ s r v, s.currentValue = some v → ¬ (s.cached + 1 ≤ info.cache) →
      seqNext info true s = .ok r →
      r.state.cached = 1 ∧
      (0 < info.incrementBy → r.persisted =
        some (clampTo info.min info.max (r.value + ((info.cache : Int) - 1)))) ∧
      (info.incrementBy < 0 → r.persisted =
        some (clampTo info.min info.max (r.value - ((info.cache : Int) - 1))))) := by
  refine ⟨fun k s flags sEnd hwf hk h =>
      seqRun_window info k s hwf hk flags sEnd h,
    fun s r v hv hle h => (seqNext_ok_shape info s r h).2.1 v hv hle,
    fun s r v hv hnle h => ?_⟩
  have hsh := (seqNext_ok_shape info s r h).2.2.1 v hv hnle
  have hpl := seqNext_persist_lease info s r hmm hc1
    (fun hcon => hnle hcon.2) h
  exact ⟨hsh.2, hpl.1, hpl.2⟩

/-- Witness for C6 at concrete inputs. -/
theorem c6_sequence_lease_caching_witness :
    (List.countP (fun x => x.2)
      [((1 : Int), true), (2, false), (3, false), (4, false), (5, false)] ≤ 1) ∧
    ((⟨2, ⟨some 2, 2⟩, none⟩ : NextResult).persisted = none ∧
      (⟨2, ⟨some 2, 2⟩, none⟩ : NextResult).state.cached = 1 + 1) ∧
    ((⟨6, ⟨some 6, 1⟩, some 10⟩ : NextResult).state.cached = 1 ∧
      ((0 : Int) < 1 → (⟨6, ⟨some 6, 1⟩, some 10⟩ : NextResult).persisted =
        some (clampTo 1 1000 (6 + ((5 : Int) - 1)))) ∧
      ((1 : Int) < 0 → (⟨6, ⟨some 6, 1⟩, some 10⟩ : NextResult).persisted =
        some (clampTo 1 1000 (6 - ((5 : Int) - 1))))) := by
  have h := c6_sequence_lease_caching ⟨1, 1, 1000, 1, 5, false⟩
    (by decide) (by decide)
  exact ⟨h.1 5 ⟨none, 0⟩
      [((1 : Int), true), (2, false), (3, false), (4, false), (5, false)]
      ⟨some 5, 5⟩ (fun _ => rfl) (by decide) (by decide),
    h.2.1 ⟨some 1, 1⟩ ⟨2, ⟨some 2, 2⟩, none⟩ 1 rfl (by decide) (by decide),
    h.2.2 ⟨some 5, 5⟩ ⟨6, ⟨some 6, 1⟩, some 10⟩ 5 rfl (by decide) (by decide)⟩


/-- C7: evaluating a comparison a OP b yields Null whenever either operand
evaluates to Null, and a IS b yields True when both operands evaluate to
Null. -/
theorem c7_null_comparisons (stack : EvalStack) (a b : Expr) (t : CmpTok)
    (v1 v2 : Value)
    (ha : evalExpr a stack = .ok v1) (hb : evalExpr b stack = .ok v2) :
    ((v1 = .vnull ∨ v2 = .vnull) →
      evalExpr (.cmp t a b) stack = .ok .vnull) ∧
    (v1 = .vnull → v2 = .vnull →
      evalExpr (.isOp a b) stack = .ok (.vbool true)) := by
  constructor
  · rintro (rfl | rfl) <;>
      simp [evalExpr, ha, hb, bind, Except.bind, pure, Except.pure,
        Value.typeOf]
  · rintro rfl rfl
    simp [evalExpr, ha, hb, bind, Except.bind, pure, Except.pure,
      Value.isEqual]

/-- Witness for C7 at concrete inputs. -/
theorem c7_null_comparisons_witness :
    evalExpr (.cmp .eq (.lit .vnull) (.lit (.vint 3))) ⟨some []⟩ =
      .ok .vnull ∧
    evalExpr (.isOp (.lit .vnull) (.lit .vnull)) ⟨some []⟩ =
      .ok (.vbool true) :=
  ⟨(c7_null_comparisons ⟨some []⟩ (.lit .vnull) (.lit (.vint 3)) .eq
      .vnull (.vint 3) rfl rfl).1 (Or.inl rfl),
   (c7_null_comparisons ⟨some []⟩ (.lit .vnull) (.lit .vnull) .eq
      .vnull .vnull rfl rfl).2 rfl rfl⟩

/-- C8 (amended): a stream built with Pipe (so with an operator) never
surfaces the StreamClosed sentinel from Iterate, and a Limit that has
reached its count makes Iterate return nil. -/
theorem c8_stream_closed_swallowed :
    (∀ (prev : GStream) (op : SOp) (fn : Doc → Except EErr Unit),
      notClosedResult (GStream.iterate (.pipe prev op) fn) = true) ∧
    (∀ (docs : List Doc) (fn : Doc → Except EErr Unit),
      GStream.iterate (.pipe (.base docs) (.limit 0)) fn = .ok ()) := by
  constructor
  · intro prev op fn
    unfold GStream.iterate GStream.iter
    dsimp only
    generalize (GStream.iter prev (pipeCB op fun d x => ((), fn d)) (0, ())).2 = u
    cases u with
    | ok v => cases v; rfl
    | error e => cases e <;> rfl
  · intro docs fn
    cases docs <;> rfl

/-- C8 counterexample: on a stream with no operator (a plain NewStream over
an iterator, op nil), Iterate returns the StreamClosed sentinel produced by
the callback instead of nil, contradicting the claim as stated. -/
theorem c8_counterexample :
    GStream.iterate (.base [[("a", Value.vnull)]])
      (fun _ => .error .streamClosed) = .error .streamClosed ∧
    (Except.error EErr.streamClosed ≠ (Except.ok () : Except EErr Unit)) :=
  ⟨rfl, by simp⟩

/-- Helper: with a document on the stack, expression evaluation is total
and computes evalD. -/
theorem evalExpr_some (e : Expr) (d : Doc) :
    evalExpr e ⟨some d⟩ = .ok (evalD e d) := by
  induction e with
  | lit v => rfl
  | field n =>
    simp only [evalExpr, evalD]
    cases getByField d n <;> rfl
  | cmp t a b iha ihb =>
    simp only [evalExpr, evalD, iha, ihb, bind, Except.bind, pure, Except.pure]
    split_ifs <;> rfl
  | isOp a b iha ihb =>
    simp only [evalExpr, evalD, iha, ihb, bind, Except.bind, pure, Except.pure]
    split_ifs <;> rfl
  | andOp a b iha ihb =>
    simp only [evalExpr, evalD, iha, ihb, bind, Except.bind, pure, Except.pure]

/-- Helper: truthiness of a three-valued AND is the conjunction of the
truthiness of its operands. -/
theorem andValues_isTruthy (a b : Value) :
    (andValues a b).isTruthy = (a.isTruthy && b.isTruthy) := by
  cases a <;> cases b <;> simp only [andValues] <;> split_ifs <;>
    simp_all [Value.isTruthy]

/-- Helper: whereClause never fails and computes truthiness of evalD. -/
theorem whereClause_ok (e : Expr) (d : Doc) :
    whereClause e d = .ok (evalD e d).isTruthy := by
  simp [whereClause, evalExpr_some]

/-- Helper: converting ErrStreamClosed to nil is idempotent. -/
theorem swallowClosed_idem (u : Except EErr Unit) :
    swallowClosed (swallowClosed u) = swallowClosed u := by
  cases u with
  | ok v => rfl
  | error e => cases e <;> rfl

/-- Helper: the pipe callback of a whereClause filter keeps its counter,
forwards the document when the predicate is truthy and skips it
otherwise. -/
theorem pipeCB_filter_app {σ : Type} (e : Expr)
    (fn : Doc → σ → σ × Except EErr Unit) (d : Doc) (c : Nat) (s : σ) :
    pipeCB (filterOf e) fn d (c, s) =
    if (evalD e d).isTruthy then
      match fn d s with
      | (s1, u) => ((c, s1), u)
    else ((c, s), .ok ()) := by
  simp only [pipeCB, filterOf, SOp.run, whereClause_ok]
  cases (evalD e d).isTruthy <;> simp

/-- Helper: the two-filter pipeline and the single AND-filter pipeline
run their callback identically over the base documents. -/
theorem c9_core (e1 e2 : Expr) (fn : Doc → Except EErr Unit) :
    ∀ (docs : List Doc) (c1 c2 c3 : Nat),
    (iterList docs
      (pipeCB (filterOf e1) (pipeCB (filterOf e2) (fun d _ => ((), fn d))))
      (c1, c2, ())).2 =
    (iterList docs
      (pipeCB (filterOf (.andOp e1 e2)) (fun d _ => ((), fn d)))
      (c3, ())).2 := by
  intro docs
  induction docs with
  | nil => intro c1 c2 c3; rfl
  | cons d ds ih =>
    intro c1 c2 c3
    have hA : (evalD (Expr.andOp e1 e2) d).isTruthy
        = ((evalD e1 d).isTruthy && (evalD e2 d).isTruthy) := by
      rw [show evalD (Expr.andOp e1 e2) d
          = andValues (evalD e1 d) (evalD e2 d) from rfl, andValues_isTruthy]
    simp only [iterList, pipeCB_filter_app, hA]
    cases ht1 : (evalD e1 d).isTruthy <;> cases ht2 : (evalD e2 d).isTruthy <;>
      simp only [ht1, ht2, Bool.true_and, Bool.false_and, Bool.and_true,
        Bool.and_false, if_true, if_false, ite_true, ite_false,
        Bool.false_eq_true]
    all_goals first
      | exact ih c1 c2 c3
      | (cases hf : fn d with
         | ok u => cases u; exact ih c1 c2 c3
         | error e => rfl)

/-- C9: Filter(e1) followed by Filter(e2) is observationally equivalent to
the single Filter(e1 AND e2): over any base document list and callback,
both pipelines make Stream.Iterate call the callback on the same documents
in the same order and return the same result. -/
theorem c9_filter_split_equivalence (docs : List Doc) (e1 e2 : Expr)
    (fn : Doc → Except EErr Unit) :
    GStream.iterate (.pipe (.pipe (.base docs) (filterOf e1)) (filterOf e2)) fn =
    GStream.iterate (.pipe (.base docs) (filterOf (.andOp e1 e2))) fn := by
  unfold GStream.iterate
  simp only [GStream.iter]
  rw [c9_core e1 e2 fn docs 0 0 0]
  exact swallowClosed_idem _

/-- C3 (amended): per-constraint validation. An absent target fails
NotNull when required and is otherwise left untouched (the declared
default-value expression is ignored; no assignment happens); a present
Null fails NotNull when required; with a declared type the value is cast,
a failing cast is a type mismatch, and the normalized document carries the
cast value. -/
theorem c3_constraint_validation (d : Doc) (c : FieldConstraint) :
    (getByField d c.path = none → c.isNotNull = true →
      validateConstraint d c = .error .notNull) ∧
    (getByField d c.path = none → c.isNotNull = false →
      validateConstraint d c = .ok d) ∧
    (∀ v, getByField d c.path = some v → v.typeOf = .tnull →
      c.isNotNull = true → validateConstraint d c = .error .notNull) ∧
    (∀ v, getByField d c.path = some v →
      ¬ (v.typeOf = .tnull ∧ c.isNotNull = true) → c.type? = none →
      validateConstraint d c = .ok d) ∧
    (∀ v t, getByField d c.path = some v →
      ¬ (v.typeOf = .tnull ∧ c.isNotNull = true) → c.type? = some t →
      castAs v t = none → validateConstraint d c = .error .typeMismatch) ∧
    (∀ v t v1, getByField d c.path = some v →
      ¬ (v.typeOf = .tnull ∧ c.isNotNull = true) → c.type? = some t →
      castAs v t = some v1 →
      validateConstraint d c = .ok (replaceField d c.path v1)) := by
  refine ⟨?_, ?_, ?_, ?_, ?_, ?_⟩
  · intro h1 h2
    simp [validateConstraint, h1, h2]
  · intro h1 h2
    simp [validateConstraint, h1, h2]
  · intro v h1 h2 h3
    simp [validateConstraint, h1, h2, h3]
  · intro v h1 h2 h3
    simp only [validateConstraint, h1, h3]
    rw [if_neg (by simpa using h2)]
  · intro v t h1 h2 h3 h4
    simp only [validateConstraint, h1, h3, h4]
    rw [if_neg (by simpa using h2)]
  · intro v t v1 h1 h2 h3 h4
    simp only [validateConstraint, h1, h3, h4]
    rw [if_neg (by simpa using h2)]

/-- C3 counterexample: a constraint on an absent path with a declared
default value and no NOT NULL leaves the document unchanged; the default
is never evaluated or assigned, contradicting the claim as stated. -/
theorem c3_counterexample :
    ¬ (∃ d1, validateConstraint []
        ⟨"a", none, false, false, some (Value.vint 42)⟩ = .ok d1 ∧
      getByField d1 "a" = some (Value.vint 42)) := by
  rintro ⟨d1, h1, h2⟩
  have h0 : validateConstraint []
      ⟨"a", none, false, false, some (Value.vint 42)⟩ = .ok [] := rfl
  rw [h0] at h1
  injection h1 with h1e
  subst h1e
  simp [getByField] at h2

/-- Witness for C3 at concrete inputs. -/
theorem c3_constraint_validation_witness :
    validateConstraint [] ⟨"a", none, false, true, none⟩ = .error .notNull ∧
    validateConstraint [] ⟨"a", none, false, false, some (Value.vint 42)⟩ =
      .ok [] ∧
    validateConstraint [("a", Value.vtext "foo")]
      ⟨"a", some .tint, false, false, none⟩ = .error .typeMismatch ∧
    validateConstraint [("a", Value.vtext "12")]
      ⟨"a", some .tint, false, false, none⟩ = .ok [("a", Value.vint 12)] := by
  refine ⟨(c3_constraint_validation [] ⟨"a", none, false, true, none⟩).1 rfl rfl,
    (c3_constraint_validation [] ⟨"a", none, false, false, some (Value.vint 42)⟩).2.1 rfl rfl,
    ?_, ?_⟩
  · exact (c3_constraint_validation [("a", Value.vtext "foo")]
      ⟨"a", some .tint, false, false, none⟩).2.2.2.2.1
      (Value.vtext "foo") .tint rfl (by simp [Value.typeOf]) rfl (by decide)
  · have := (c3_constraint_validation [("a", Value.vtext "12")]
      ⟨"a", some .tint, false, false, none⟩).2.2.2.2.2
      (Value.vtext "12") .tint (Value.vint 12) rfl (by simp [Value.typeOf])
      rfl (by decide)
    simpa [replaceField] using this

/-- C4: key generation. With a primary key, the key is the primary-key
value of the normalized document, encoded with the typed key codec when a
type is declared and the untyped codec otherwise, and an absent value
fails PrimaryKeyMissing; without a primary key the key is the next store
sequence value encoded as a varint. -/
theorem c4_key_generation (info : TableInfo) (seq : Nat) (d : Doc) :
    (∀ pk, info.getPrimaryKey = some pk → getByField d pk.path = none →
      generateKey info seq d = .error .primaryKeyMissing) ∧
    (∀ pk v t, info.getPrimaryKey = some pk → getByField d pk.path = some v →
      pk.type? = some t → generateKey info seq d = .ok (.typed v.typeOf v, seq)) ∧
    (∀ pk v, info.getPrimaryKey = some pk → getByField d pk.path = some v →
      pk.type? = none → generateKey info seq d = .ok (.untyped v, seq)) ∧
    (info.getPrimaryKey = none →
      generateKey info seq d = .ok (.docid (seq + 1), seq + 1)) := by
  refine ⟨?_, ?_, ?_, ?_⟩
  · intro pk h1 h2
    simp [generateKey, h1, h2]
  · intro pk v t h1 h2 h3
    simp [generateKey, h1, h2, h3]
  · intro pk v h1 h2 h3
    simp [generateKey, h1, h2, h3]
  · intro h1
    simp [generateKey, h1]

/-- Witness for C4 at concrete inputs. -/
theorem c4_key_generation_witness :
    generateKey ⟨false, [⟨"id", some .tint, true, false, none⟩]⟩ 0
      [("id", Value.vint 7)] = .ok (.typed .tint (Value.vint 7), 0) ∧
    generateKey ⟨false, [⟨"id", none, true, false, none⟩]⟩ 0 [] =
      .error .primaryKeyMissing ∧
    generateKey ⟨false, []⟩ 4 [] = .ok (.docid 5, 5) := by
  refine ⟨?_, ?_, ?_⟩
  · exact (c4_key_generation _ 0 _).2.1 ⟨"id", some .tint, true, false, none⟩
      (Value.vint 7) .tint (by decide) (by decide) rfl
  · exact (c4_key_generation _ 0 _).1 ⟨"id", none, true, false, none⟩ (by decide) rfl
  · exact (c4_key_generation _ 4 _).2.2.2 rfl

/-- Helper: with no unique conflict, the index loop of Insert appends the
(indexed value, key) pair to every index. -/
theorem insertIndexes_ok_of_noConflict (d : Doc) (k : StorageKey) :
    ∀ (idxs : List IndexState),
    (∀ ix ∈ idxs, uniqueConflict ix (pathValueOf d ix.info.path) = false) →
    insertIndexes d k idxs = .ok (idxs.map (fun ix =>
      ⟨ix.info, ix.entries ++ [(pathValueOf d ix.info.path, k)]⟩)) := by
  intro idxs
  induction idxs with
  | nil => intro h; rfl
  | cons ix rest ih =>
    intro h
    have hix := h ix (List.mem_cons_self ix rest)
    simp only [insertIndexes, indexSet, hix, Bool.false_eq_true, if_false]
    rw [ih (fun i hi => h i (List.mem_cons_of_mem ix hi))]
    rfl

/-- Helper: a unique conflict anywhere makes the index loop of Insert fail
DuplicateDocument. -/
theorem insertIndexes_err_of_conflict (d : Doc) (k : StorageKey) :
    ∀ (idxs : List IndexState),
    (∃ ix ∈ idxs, uniqueConflict ix (pathValueOf d ix.info.path) = true) →
    insertIndexes d k idxs = .error .duplicateDocument := by
  intro idxs
  induction idxs with
  | nil => rintro ⟨ix, h, _⟩; cases h
  | cons ix rest ih =>
    rintro ⟨j, hj, hc⟩
    rcases List.mem_cons.mp hj with rfl | hmem
    · simp only [insertIndexes, indexSet, hc, if_true]
    · cases hhead : uniqueConflict ix (pathValueOf d ix.info.path) with
      | true => simp only [insertIndexes, indexSet, hhead, if_true]
      | false =>
        simp only [insertIndexes, indexSet, hhead, Bool.false_eq_true,
          if_false]
        rw [ih ⟨j, hmem, hc⟩]

/-- C2: Table.Insert contract. If the generated key is already present in
the store the insert fails DuplicateDocument; otherwise it stores the
validated document under the key and appends (indexed value, key) to every
index, reading an absent indexed path as Null; a unique-index conflict
makes the whole insert fail DuplicateDocument. -/
theorem c2_insert_contract (s : TableState) (d d1 : Doc) (k : StorageKey)
    (seq1 : Nat)
    (hro : s.info.readOnly = false)
    (hval : validateConstraints s.info d = .ok d1)
    (hkey : generateKey s.info s.seq d1 = .ok (k, seq1)) :
    ((∃ old, storeGet s.rows k = some old) →
      tableInsert s d = .error .duplicateDocument) ∧
    (storeGet s.rows k = none →
      (∀ ix ∈ s.indexes,
        uniqueConflict ix (pathValueOf d1 ix.info.path) = false) →
      tableInsert s d = .ok (k, ⟨s.info, storePut s.rows k d1,
        s.indexes.map (fun ix => ⟨ix.info,
          ix.entries ++ [(pathValueOf d1 ix.info.path, k)]⟩), seq1⟩)) ∧
    (storeGet s.rows k = none →
      (∃ ix ∈ s.indexes,
        uniqueConflict ix (pathValueOf d1 ix.info.path) = true) →
      tableInsert s d = .error .duplicateDocument) := by
  refine ⟨?_, ?_, ?_⟩
  · rintro ⟨old, hold⟩
    simp only [tableInsert, hro, Bool.false_eq_true, if_false, hval, hkey,
      hold]
  · intro hfresh hnc
    simp only [tableInsert, hro, Bool.false_eq_true, if_false, hval, hkey,
      hfresh, insertIndexes_ok_of_noConflict d1 k s.indexes hnc]
  · intro hfresh hc
    simp only [tableInsert, hro, Bool.false_eq_true, if_false, hval, hkey,
      hfresh, insertIndexes_err_of_conflict d1 k s.indexes hc]

/-- Witness for C2 at concrete inputs. -/
theorem c2_insert_contract_witness :
    tableInsert ⟨⟨false, []⟩, [(.docid 1, [("x", Value.vint 9)])], [], 0⟩
      [] = .error .duplicateDocument ∧
    tableInsert ⟨⟨false, []⟩, [(.docid 1, [("a", Value.vint 1)])],
        [⟨⟨"a", true⟩, [(Value.vint 1, .docid 1)]⟩], 1⟩
      [("a", Value.vint 1)] = .error .duplicateDocument ∧
    tableInsert ⟨⟨false, []⟩, [], [⟨⟨"a", true⟩, []⟩], 0⟩
      [("b", Value.vint 2)] = .ok (.docid 1, ⟨⟨false, []⟩,
        [(.docid 1, [("b", Value.vint 2)])],
        [⟨⟨"a", true⟩, [(Value.vnull, .docid 1)]⟩], 1⟩) := by
  refine ⟨?_, ?_, ?_⟩
  · exact (c2_insert_contract ⟨⟨false, []⟩,
      [(.docid 1, [("x", Value.vint 9)])], [], 0⟩
      [] [] (.docid 1) 1 rfl (by decide) (by decide)).1
      ⟨[("x", Value.vint 9)], by decide⟩
  · exact (c2_insert_contract ⟨⟨false, []⟩,
      [(.docid 1, [("a", Value.vint 1)])],
      [⟨⟨"a", true⟩, [(Value.vint 1, .docid 1)]⟩], 1⟩
      [("a", Value.vint 1)] [("a", Value.vint 1)]
      (.docid 2) 2 rfl (by decide) (by decide)).2.2 (by decide)
      ⟨⟨⟨"a", true⟩, [(Value.vint 1, .docid 1)]⟩, by decide⟩
  · have := (c2_insert_contract ⟨⟨false, []⟩, [], [⟨⟨"a", true⟩, []⟩], 0⟩
      [("b", Value.vint 2)] [("b", Value.vint 2)] (.docid 1) 1 rfl rfl
      (by decide)).2.1 (by decide) (by decide)
    simpa using this

/-- Helper: the wildcard expansion emits pairwise distinct names, none
already emitted, and grows the emitted set by exactly those names. -/
theorem wildEmit_char : ∀ (d : Doc) (seen : List String),
    ((wildEmit d seen).1.map Prod.fst).Nodup ∧
    (∀ f ∈ (wildEmit d seen).1.map Prod.fst, f ∉ seen) ∧
    (∀ f, f ∈ (wildEmit d seen).2 ↔
      f ∈ (wildEmit d seen).1.map Prod.fst ∨ f ∈ seen) := by
  intro d
  induction d with
  | nil =>
    intro seen
    refine ⟨List.nodup_nil, by simp [wildEmit], by simp [wildEmit]⟩
  | cons fv rest ih =>
    intro seen
    obtain ⟨f0, v⟩ := fv
    by_cases hf : f0 ∈ seen
    · simpa [wildEmit, hf] using ih seen
    · obtain ⟨ih1, ih2, ih3⟩ := ih (f0 :: seen)
      simp only [wildEmit, hf, if_false, ite_false]
      refine ⟨?_, ?_, ?_⟩
      · simp only [List.map_cons, List.nodup_cons]
        exact ⟨fun hmem => (ih2 f0 hmem) (List.mem_cons_self f0 seen), ih1⟩
      · intro f hmem
        rw [List.map_cons] at hmem
        rcases List.mem_cons.mp hmem with rfl | hmem2
        · exact hf
        · intro hs
          exact ih2 f hmem2 (List.mem_cons_of_mem f0 hs)
      · intro f
        rw [ih3 f, List.map_cons]
        simp only [List.mem_cons]
        constructor
        · rintro (h1 | h2)
          · exact Or.inl (Or.inr h1)
          · rcases h2 with rfl | h3
            · exact Or.inl (Or.inl rfl)
            · exact Or.inr h3
        · rintro ((rfl | h1) | h2)
          · exact Or.inr (Or.inl rfl)
          · exact Or.inl h1
          · exact Or.inr (Or.inr h2)

/-- Helper: a source document with distinct field names none of which
were emitted is re-emitted whole by the wildcard. -/
theorem wildEmit_all_fresh : ∀ (d : Doc) (seen : List String),
    (d.map Prod.fst).Nodup → (∀ f ∈ d.map Prod.fst, f ∉ seen) →
    (wildEmit d seen).1 = d := by
  intro d
  induction d with
  | nil => intro seen _ _; rfl
  | cons fv rest ih =>
    intro seen hnd hdisj
    obtain ⟨f0, v⟩ := fv
    have hf : f0 ∉ seen := hdisj f0 (by simp)
    simp only [wildEmit, hf, if_false, ite_false]
    rw [ih (f0 :: seen) (by simpa using hnd.of_cons) ?_]
    intro f hmem hs
    rcases List.mem_cons.mp hs with rfl | h3
    · exact (List.nodup_cons.mp (by simpa using hnd)).1 hmem
    · exact hdisj f (by simp [hmem]) h3

/-- Helper: the emitted field names of a mask iteration are pairwise
distinct and disjoint from the already-emitted set. -/
theorem maskIterAux_nodup : ∀ (L : List PExpr) (env : PEnv)
    (seen : List String) (l : List (String × Value)),
    maskIterAux L env seen = .ok l →
    (l.map Prod.fst).Nodup ∧ ∀ f ∈ l.map Prod.fst, f ∉ seen := by
  intro L
  induction L with
  | nil =>
    intro env seen l h
    injection h with h2
    subst h2
    exact ⟨List.nodup_nil, by simp⟩
  | cons e rest ih =>
    intro env seen l h
    cases e with
    | wildcard =>
      cases henv : env.doc with
      | none =>
        rw [maskIterAux, henv] at h
        injection h with h2
        subst h2
        exact ⟨List.nodup_nil, by simp⟩
      | some d =>
        rw [maskIterAux, henv] at h
        have h2 : Except.map (fun l => (wildEmit d seen).1 ++ l)
            (maskIterAux rest env (wildEmit d seen).2) = .ok l := h
        clear h
        rename' h2 => h
        cases hrest : maskIterAux rest env (wildEmit d seen).2 with
        | error er => rw [hrest] at h; exact absurd h (by simp [Except.map])
        | ok l2 =>
          rw [hrest] at h
          simp only [Except.map] at h
          injection h with h2
          subst h2
          obtain ⟨w1, w2, w3⟩ := wildEmit_char d seen
          obtain ⟨r1, r2⟩ := ih env _ l2 hrest
          refine ⟨?_, ?_⟩
          · rw [List.map_append]
            rw [List.nodup_append]
            refine ⟨w1, r1, ?_⟩
            intro f hfw hfl
            exact (r2 f hfl) ((w3 f).mpr (Or.inl hfw))
          · intro f hmem hs
            rw [List.map_append, List.mem_append] at hmem
            rcases hmem with h1 | h2
            · exact w2 f h1 hs
            · exact r2 f h2 ((w3 f).mpr (Or.inr hs))
    | named n e1 =>
      rw [maskIterAux] at h
      by_cases hn : n ∈ seen
      · rw [if_pos hn] at h
        obtain ⟨r1, r2⟩ := ih env seen l h
        exact ⟨r1, fun f hf => r2 f hf⟩
      · rw [if_neg hn] at h
        cases hev : evalExpr e1 ⟨env.doc⟩ with
        | error er =>
          rw [hev] at h
          exact absurd h (by simp [bind, Except.bind])
        | ok v =>
          rw [hev] at h
          simp only [bind, Except.bind] at h
          cases hrest : maskIterAux rest env (n :: seen) with
          | error er => rw [hrest] at h; exact absurd h (by simp)
          | ok l2 =>
            rw [hrest] at h
            simp only [pure, Except.pure] at h
            injection h with h2
            subst h2
            obtain ⟨r1, r2⟩ := ih env (n :: seen) l2 hrest
            refine ⟨?_, ?_⟩
            · simp only [List.map_cons, List.nodup_cons]
              exact ⟨fun hmem => (r2 n hmem) (by simp), r1⟩
            · intro f hmem hs
              rw [List.map_cons] at hmem
              rcases List.mem_cons.mp hmem with rfl | h3
              · exact hn hs
              · exact r2 f h3 (List.mem_cons_of_mem n hs)
    | anon n e1 =>
      rw [maskIterAux] at h
      by_cases hn : n ∈ seen
      · rw [if_pos hn] at h
        obtain ⟨r1, r2⟩ := ih env seen l h
        exact ⟨r1, fun f hf => r2 f hf⟩
      · rw [if_neg hn] at h
        cases hev : evalExpr e1 ⟨env.doc⟩ with
        | error er =>
          rw [hev] at h
          exact absurd h (by simp [bind, Except.bind])
        | ok v =>
          rw [hev] at h
          simp only [bind, Except.bind] at h
          cases hrest : maskIterAux rest env (n :: seen) with
          | error er => rw [hrest] at h; exact absurd h (by simp)
          | ok l2 =>
            rw [hrest] at h
            simp only [pure, Except.pure] at h
            injection h with h2
            subst h2
            obtain ⟨r1, r2⟩ := ih env (n :: seen) l2 hrest
            refine ⟨?_, ?_⟩
            · simp only [List.map_cons, List.nodup_cons]
              exact ⟨fun hmem => (r2 n hmem) (by simp), r1⟩
            · intro f hmem hs
              rw [List.map_cons] at hmem
              rcases List.mem_cons.mp hmem with rfl | h3
              · exact hn hs
              · exact r2 f h3 (List.mem_cons_of_mem n hs)

/-- Helper: a run of named expressions with distinct fresh names is
emitted in list order with its values. -/
theorem maskIterAux_named_lits : ∀ (L : List (String × Value)) (env : PEnv)
    (seen : List String),
    (L.map Prod.fst).Nodup → (∀ f ∈ L.map Prod.fst, f ∉ seen) →
    maskIterAux (L.map (fun p => PExpr.named p.1 (.lit p.2))) env seen =
      .ok L := by
  intro L
  induction L with
  | nil => intro env seen _ _; rfl
  | cons nv rest ih =>
    intro env seen hnd hdisj
    obtain ⟨n, v⟩ := nv
    have hn : n ∉ seen := hdisj n (by simp)
    simp only [List.map_cons, maskIterAux, hn, if_false, ite_false]
    rw [show evalExpr (.lit v) ⟨env.doc⟩ = .ok v from rfl]
    simp only [bind, Except.bind]
    rw [ih env (n :: seen) (by simpa using hnd.of_cons) ?_]
    · rfl
    intro f hmem hs
    rcases List.mem_cons.mp hs with rfl | h3
    · exact (List.nodup_cons.mp (by simpa using hnd)).1 hmem
    · exact hdisj f (by simp [hmem]) h3

/-- C10: the projection mask iterates the projected expressions from last
to first, emits each distinct field name at most once, resolves a field
declared several times to the last-declared expression (GetByField), and
expands a wildcard to the source document fields, skipping names already
emitted. -/
theorem c10_projection_mask :
    (∀ (exprs : List PExpr) (env : PEnv) (l : List (String × Value)),
      maskIterate exprs env = .ok l → (l.map Prod.fst).Nodup) ∧
    (∀ (es : List PExpr) (env : PEnv) (n : String) (e : Expr),
      maskGetByField (es ++ [.named n e]) env n = evalExpr e ⟨env.doc⟩) ∧
    (∀ (ps : List (String × Value)) (env : PEnv), (ps.map Prod.fst).Nodup →
      maskIterate (ps.map (fun p => PExpr.named p.1 (.lit p.2))) env =
        .ok ps.reverse) ∧
    (∀ d : Doc, (d.map Prod.fst).Nodup →
      maskIterate [.wildcard] ⟨some d⟩ = .ok d) := by
  refine ⟨?_, ?_, ?_, ?_⟩
  · intro exprs env l h
    exact (maskIterAux_nodup exprs.reverse env [] l h).1
  · intro es env n e
    rw [maskGetByField, List.reverse_append]
    simp only [List.reverse_cons, List.reverse_nil, List.nil_append,
      List.singleton_append]
    simp [maskGetAux]
  · intro ps env hnd
    rw [maskIterate, ← List.map_reverse]
    exact maskIterAux_named_lits ps.reverse env []
      (by simpa using hnd) (by simp)
  · intro d hnd
    have h1 : (wildEmit d []).1 = d := wildEmit_all_fresh d [] hnd (by simp)
    rw [maskIterate]
    show maskIterAux [PExpr.wildcard] ⟨some d⟩ [] = .ok d
    simp [maskIterAux, Except.map, h1]

/-- Witness for C10 at concrete inputs. -/
theorem c10_projection_mask_witness :
    ((([("x", Value.vint 2)] : List (String × Value)).map Prod.fst).Nodup) ∧
    maskGetByField [.wildcard, .named "y" (.lit (Value.vint 3))] ⟨none⟩ "y" =
      evalExpr (.lit (Value.vint 3)) ⟨none⟩ ∧
    maskIterate ([("a", Value.vint 1), ("b", Value.vint 2)].map
      (fun p => PExpr.named p.1 (.lit p.2))) ⟨none⟩ =
      .ok [("b", Value.vint 2), ("a", Value.vint 1)] ∧
    maskIterate [.wildcard] ⟨some [("a", Value.vint 1)]⟩ =
      .ok [("a", Value.vint 1)] := by
  refine ⟨c10_projection_mask.1 [.named "x" (.lit (Value.vint 1)),
      .named "x" (.lit (Value.vint 2))] ⟨none⟩ [("x", Value.vint 2)]
      (by decide),
    c10_projection_mask.2.1 [.wildcard] ⟨none⟩ "y" (.lit (Value.vint 3)),
    ?_,
    c10_projection_mask.2.2.2 [("a", Value.vint 1)] (by decide)⟩
  have := c10_projection_mask.2.2.1
    [("a", Value.vint 1), ("b", Value.vint 2)] ⟨none⟩ (by decide)
  simpa using this

/-! ## Index consistency invariant (C1) -/

theorem storeGet_none_iff (rows : List (StorageKey × Doc)) (k : StorageKey) :
    storeGet rows k = none ↔ ∀ e ∈ rows, ¬ (e.1 = k) := by
  rw [storeGet, Option.map_eq_none']
  rw [List.find?_eq_none]
  simp

theorem storeGet_some_mem (rows : List (StorageKey × Doc)) (k : StorageKey)
    (dd : Doc) (h : storeGet rows k = some dd) : (k, dd) ∈ rows := by
  rw [storeGet] at h
  cases hf : List.find? (fun e => e.1 = k) rows with
  | none => rw [hf] at h; cases h
  | some e =>
    rw [hf] at h
    injection h with h2
    have hm := List.mem_of_find?_eq_some hf
    have hp := List.find?_some hf
    have h1 : e.1 = k := by simpa using hp
    obtain ⟨e1, e2⟩ := e
    dsimp only at h1 h2
    subst h1
    subst h2
    exact hm

theorem nodup_keys_unique (rows : List (StorageKey × Doc))
    (hnd : (rows.map Prod.fst).Nodup) (k : StorageKey) (a b : Doc)
    (ha : (k, a) ∈ rows) (hb : (k, b) ∈ rows) : a = b := by
  induction rows with
  | nil => cases ha
  | cons e rest ih =>
    rw [List.map_cons, List.nodup_cons] at hnd
    rcases List.mem_cons.mp ha with rfl | ha2
    · rcases List.mem_cons.mp hb with h | hb2
      · injection h with h1 h2
        exact h2.symm
      · exact absurd (by simpa using List.mem_map_of_mem Prod.fst hb2)
          (by simpa using hnd.1)
    · rcases List.mem_cons.mp hb with rfl | hb2
      · exact absurd (by simpa using List.mem_map_of_mem Prod.fst ha2)
          (by simpa using hnd.1)
      · exact ih hnd.2 ha2 hb2

theorem storePut_fresh (rows : List (StorageKey × Doc)) (k : StorageKey)
    (d : Doc) (h : storeGet rows k = none) :
    storePut rows k d = rows ++ [(k, d)] := by
  have hany : rows.any (fun e => decide (e.1 = k)) = false := by
    rw [List.any_eq_false]
    intro e he
    simpa using (storeGet_none_iff rows k).mp h e he
  rw [storePut, if_neg (by simp [hany])]

theorem storePut_existing_mem (rows : List (StorageKey × Doc))
    (k : StorageKey) (d old : Doc)
    (hold : (k, old) ∈ rows) (x : StorageKey) (dd : Doc) :
    (x, dd) ∈ storePut rows k d ↔
      (x = k ∧ dd = d) ∨ ((x, dd) ∈ rows ∧ ¬ (x = k)) := by
  rw [storePut, if_pos]
  swap
  · simp only [List.any_eq_true]
    exact ⟨(k, old), hold, by simp⟩
  constructor
  · intro hmem
    obtain ⟨e, he, hf⟩ := List.mem_map.mp hmem
    by_cases hek : e.1 = k
    · rw [if_pos hek] at hf
      injection hf with h1 h2
      exact Or.inl ⟨h1.symm, h2.symm⟩
    · rw [if_neg hek] at hf
      subst hf
      exact Or.inr ⟨he, hek⟩
  · rintro (⟨rfl, rfl⟩ | ⟨hmem, hx⟩)
    · exact List.mem_map.mpr ⟨(x, old), hold, by simp⟩
    · exact List.mem_map.mpr ⟨(x, dd), hmem, by simp [hx]⟩

theorem storePut_existing_keys (rows : List (StorageKey × Doc))
    (k : StorageKey) (d old : Doc) (hold : (k, old) ∈ rows) :
    (storePut rows k d).map Prod.fst = rows.map Prod.fst := by
  rw [storePut]
  split
  · rw [List.map_map]
    apply List.map_congr_left
    intro e _
    by_cases hek : e.1 = k
    · simp [hek]
    · simp [hek]
  · rename_i hany
    exfalso
    rw [List.any_eq_true] at hany
    exact hany ⟨(k, old), hold, by simp⟩

theorem indexDelete_mem (ix : IndexState) (v : Value) (k : StorageKey)
    (v1 : Value) (k1 : StorageKey) :
    (v1, k1) ∈ (indexDelete ix v k).entries ↔
      (v1, k1) ∈ ix.entries ∧ ¬ (v1 = v ∧ k1 = k) := by
  rw [indexDelete]
  simp only [List.mem_filter]
  constructor
  · rintro ⟨h1, h2⟩
    refine ⟨h1, ?_⟩
    rintro ⟨rfl, rfl⟩
    simp at h2
  · rintro ⟨h1, h2⟩
    refine ⟨h1, ?_⟩
    simp only [Bool.not_eq_true', Bool.and_eq_false_iff, decide_eq_false_iff_not]
    by_cases hv : v1 = v
    · exact Or.inr (fun hk => h2 ⟨hv, hk⟩)
    · exact Or.inl hv

theorem insertIndexes_ok_char (d : Doc) (k : StorageKey) :
    ∀ (idxs idxs1 : List IndexState), insertIndexes d k idxs = .ok idxs1 →
    idxs1 = idxs.map (fun ix =>
      ⟨ix.info, ix.entries ++ [(pathValueOf d ix.info.path, k)]⟩) := by
  intro idxs
  induction idxs with
  | nil =>
    intro idxs1 h
    injection h with h2
    subst h2
    rfl
  | cons ix rest ih =>
    intro idxs1 h
    rw [insertIndexes] at h
    cases hset : indexSet ix (pathValueOf d ix.info.path) k with
    | error e => rw [hset] at h; cases h
    | ok ix1 =>
      rw [hset] at h
      cases hrest : insertIndexes d k rest with
      | error e => rw [hrest] at h; cases h
      | ok rest1 =>
        rw [hrest] at h
        injection h with h2
        subst h2
        rw [indexSet] at hset
        split at hset
        · cases hset
        · injection hset with h3
          rw [ih rest1 hrest, ← h3, List.map_cons]

theorem deleteIndexes_ok_char (d : Doc) (k : StorageKey) :
    ∀ (idxs idxs1 : List IndexState), deleteIndexes d k idxs = .ok idxs1 →
    (∀ ix ∈ idxs, (getByField d ix.info.path).isSome) ∧
    idxs1 = idxs.map (fun ix =>
      indexDelete ix (pathValueOf d ix.info.path) k) := by
  intro idxs
  induction idxs with
  | nil =>
    intro idxs1 h
    injection h with h2
    subst h2
    exact ⟨by simp, rfl⟩
  | cons ix rest ih =>
    intro idxs1 h
    rw [deleteIndexes] at h
    cases hget : getByField d ix.info.path with
    | none => rw [hget] at h; cases h
    | some v =>
      rw [hget] at h
      dsimp only at h
      cases hrest : deleteIndexes d k rest with
      | error e => rw [hrest] at h; cases h
      | ok rest1 =>
        rw [hrest] at h
        injection h with h2
        subst h2
        obtain ⟨ih1, ih2⟩ := ih rest1 hrest
        refine ⟨?_, ?_⟩
        · intro j hj
          rcases List.mem_cons.mp hj with rfl | hj2
          · simp [hget]
          · exact ih1 j hj2
        · rw [ih2, List.map_cons]
          have hv : pathValueOf d ix.info.path = v := by
            rw [pathValueOf, hget]
            rfl
          rw [hv]

theorem replaceIndexes_ok_char (d : Doc) (k : StorageKey) :
    ∀ (idxs idxs1 : List IndexState),
    (∀ ix ∈ idxs, (getByField d ix.info.path).isSome) →
    replaceIndexes d k idxs = .ok idxs1 →
    idxs1 = idxs.map (fun ix =>
      ⟨ix.info, ix.entries ++ [(pathValueOf d ix.info.path, k)]⟩) := by
  intro idxs
  induction idxs with
  | nil =>
    intro idxs1 _ h
    injection h with h2
    subst h2
    rfl
  | cons ix rest ih =>
    intro idxs1 hpres h
    rw [replaceIndexes] at h
    cases hget : getByField d ix.info.path with
    | none =>
      exact absurd (hpres ix (by simp)) (by simp [hget])
    | some v =>
      rw [hget] at h
      dsimp only at h
      cases hset : indexSet ix v k with
      | error e => rw [hset] at h; cases h
      | ok ix1 =>
        rw [hset] at h
        cases hrest : replaceIndexes d k rest with
        | error e => rw [hrest] at h; cases h
        | ok rest1 =>
          rw [hrest] at h
          injection h with h2
          subst h2
          rw [indexSet] at hset
          split at hset
          · cases hset
          · injection hset with h3
            have hv : pathValueOf d ix.info.path = v := by
              rw [pathValueOf, hget]
              rfl
            rw [ih rest1 (fun j hj => hpres j (List.mem_cons_of_mem ix hj))
              hrest, ← h3, List.map_cons, hv]

theorem tableInsert_ok_inv (s : TableState) (d : Doc) (k : StorageKey)
    (s1 : TableState) (h : tableInsert s d = .ok (k, s1)) :
    s.info.readOnly = false ∧
    ∃ d1 seq1,
      validateConstraints s.info d = .ok d1 ∧
      generateKey s.info s.seq d1 = .ok (k, seq1) ∧
      storeGet s.rows k = none ∧
      insertIndexes d1 k s.indexes = .ok s1.indexes ∧
      s1 = ⟨s.info, storePut s.rows k d1, s1.indexes, seq1⟩ := by
  rw [tableInsert] at h
  by_cases hro : s.info.readOnly = true
  · rw [if_pos hro] at h; cases h
  rw [if_neg hro] at h
  refine ⟨by simpa using hro, ?_⟩
  cases hval : validateConstraints s.info d with
  | error e => rw [hval] at h; cases h
  | ok d1 =>
    rw [hval] at h
    dsimp only at h
    cases hkey : generateKey s.info s.seq d1 with
    | error e => rw [hkey] at h; cases h
    | ok p =>
      obtain ⟨k0, seq1⟩ := p
      rw [hkey] at h
      dsimp only at h
      cases hget : storeGet s.rows k0 with
      | some old => rw [hget] at h; cases h
      | none =>
        rw [hget] at h
        dsimp only at h
        cases hidx : insertIndexes d1 k0 s.indexes with
        | error e => rw [hidx] at h; cases h
        | ok idxs1 =>
          rw [hidx] at h
          injection h with h2
          obtain ⟨hk, hs⟩ := Prod.mk.injEq _ _ _ _ ▸ h2
          subst hk
          refine ⟨d1, seq1, rfl, hkey, hget, ?_, ?_⟩
          · rw [← hs]; exact hidx
          · rw [← hs]

theorem tableDelete_ok_inv (s : TableState) (k : StorageKey)
    (s1 : TableState) (h : tableDelete s k = .ok s1) :
    ∃ dd,
      storeGet s.rows k = some dd ∧
      deleteIndexes dd k s.indexes = .ok s1.indexes ∧
      s1 = ⟨s.info, s.rows.filter (fun e => !(e.1 = k)), s1.indexes,
        s.seq⟩ := by
  rw [tableDelete] at h
  by_cases hro : s.info.readOnly = true
  · rw [if_pos hro] at h; cases h
  rw [if_neg hro] at h
  cases hget : storeGet s.rows k with
  | none => rw [hget] at h; cases h
  | some dd =>
    rw [hget] at h
    dsimp only at h
    cases hidx : deleteIndexes dd k s.indexes with
    | error e => rw [hidx] at h; cases h
    | ok idxs1 =>
      rw [hidx] at h
      injection h with h2
      refine ⟨dd, rfl, ?_, ?_⟩
      · rw [← h2]; exact hidx
      · rw [← h2]

theorem tableReplace_ok_inv (s : TableState) (k : StorageKey) (d : Doc)
    (s1 : TableState) (h : tableReplace s k d = .ok s1) :
    ∃ d1 old idxs1,
      validateConstraints s.info d = .ok d1 ∧
      storeGet s.rows k = some old ∧
      deleteIndexes old k s.indexes = .ok idxs1 ∧
      replaceIndexes d1 k idxs1 = .ok s1.indexes ∧
      s1 = ⟨s.info, storePut s.rows k d1, s1.indexes, s.seq⟩ := by
  rw [tableReplace] at h
  by_cases hro : s.info.readOnly = true
  · rw [if_pos hro] at h; cases h
  rw [if_neg hro] at h
  cases hval : validateConstraints s.info d with
  | error e => rw [hval] at h; cases h
  | ok d1 =>
    rw [hval] at h
    dsimp only at h
    cases hget : storeGet s.rows k with
    | none => rw [hget] at h; cases h
    | some old =>
      rw [hget] at h
      dsimp only at h
      cases hdel : deleteIndexes old k s.indexes with
      | error e => rw [hdel] at h; cases h
      | ok idxs1 =>
        rw [hdel] at h
        dsimp only at h
        cases hrep : replaceIndexes d1 k idxs1 with
        | error e => rw [hrep] at h; cases h
        | ok idxs2 =>
          rw [hrep] at h
          injection h with h2
          refine ⟨d1, old, idxs1, rfl, rfl, hdel, ?_, ?_⟩
          · rw [← h2]; exact hrep
          · rw [← h2]

theorem strongInv_insert (s : TableState) (d : Doc) (k : StorageKey)
    (s1 : TableState) (h : tableInsert s d = .ok (k, s1))
    (hs : StrongInv s) : StrongInv s1 := by
  obtain ⟨hro, d1, seq1, hval, hkey, hfresh, hidx, hshape⟩ :=
    tableInsert_ok_inv s d k s1 h
  have hidxchar := insertIndexes_ok_char d1 k s.indexes s1.indexes hidx
  have hput := storePut_fresh s.rows k d1 hfresh
  have hrows : s1.rows = s.rows ++ [(k, d1)] := by rw [hshape]; exact hput
  obtain ⟨hnd, hix⟩ := hs
  have hkfresh : ∀ e ∈ s.rows, ¬ (e.1 = k) := (storeGet_none_iff _ _).mp hfresh
  have hknotin : k ∉ s.rows.map Prod.fst := by
    intro hk
    obtain ⟨e, he, hke⟩ := List.mem_map.mp hk
    exact hkfresh e he hke
  constructor
  · rw [hrows, List.map_append]
    simp only [List.map_cons, List.map_nil]
    rw [List.nodup_append]
    refine ⟨hnd, List.nodup_singleton k, ?_⟩
    intro a ha hak
    rw [List.mem_singleton] at hak
    subst hak
    exact hknotin ha
  · intro ix hixmem
    rw [hidxchar] at hixmem
    obtain ⟨j, hj, rfl⟩ := List.mem_map.mp hixmem
    obtain ⟨jnd, jfwd, jbwd⟩ := hix j hj
    refine ⟨?_, ?_, ?_⟩
    · simp only [List.map_append, List.map_cons, List.map_nil]
      rw [List.nodup_append]
      refine ⟨jnd, List.nodup_singleton k, ?_⟩
      intro a ha hak
      rw [List.mem_singleton] at hak
      subst hak
      obtain ⟨e, he, hes⟩ := List.mem_map.mp ha
      obtain ⟨kd, hkd, hek, _⟩ := jbwd e he
      exact hkfresh kd hkd (by rw [← hek, hes])
    · intro kd hkd
      rw [hrows] at hkd
      rcases List.mem_append.mp hkd with hold | hnew
      · exact List.mem_append_left _ (jfwd kd hold)
      · simp only [List.mem_singleton] at hnew
        subst hnew
        exact List.mem_append_right _ (by simp)
    · intro e hemem
      rcases List.mem_append.mp hemem with hold | hnew
      · obtain ⟨kd, hkd, h1, h2⟩ := jbwd e hold
        exact ⟨kd, by rw [hrows]; exact List.mem_append_left _ hkd, h1, h2⟩
      · simp only [List.mem_singleton] at hnew
        subst hnew
        exact ⟨(k, d1), by rw [hrows]; exact List.mem_append_right _ (by simp),
          rfl, rfl⟩

theorem strongInv_delete (s : TableState) (k : StorageKey)
    (s1 : TableState) (h : tableDelete s k = .ok s1)
    (hs : StrongInv s) : StrongInv s1 := by
  obtain ⟨dd, hget, hidx, hshape⟩ := tableDelete_ok_inv s k s1 h
  obtain ⟨hpres, hidxeq⟩ := deleteIndexes_ok_char dd k s.indexes s1.indexes hidx
  have hrows : s1.rows = s.rows.filter (fun e => !(e.1 = k)) := by rw [hshape]
  obtain ⟨hnd, hix⟩ := hs
  have hddmem : (k, dd) ∈ s.rows := storeGet_some_mem s.rows k dd hget
  have hmemrow : ∀ x : StorageKey × Doc,
      x ∈ s1.rows ↔ x ∈ s.rows ∧ ¬ (x.1 = k) := by
    intro x
    rw [hrows, List.mem_filter]
    simp
  constructor
  · rw [hrows]
    exact (List.Sublist.map Prod.fst (List.filter_sublist s.rows)).nodup hnd
  · intro ix hixmem
    rw [hidxeq] at hixmem
    obtain ⟨j, hj, rfl⟩ := List.mem_map.mp hixmem
    obtain ⟨jnd, jfwd, jbwd⟩ := hix j hj
    have hinfo : (indexDelete j (pathValueOf dd j.info.path) k).info = j.info := rfl
    refine ⟨?_, ?_, ?_⟩
    · rw [indexDelete]
      exact (List.Sublist.map Prod.snd (List.filter_sublist j.entries)).nodup jnd
    · intro kd hkd
      obtain ⟨hkdold, hkdk⟩ := (hmemrow kd).mp hkd
      exact (indexDelete_mem j _ k _ _).mpr
        ⟨jfwd kd hkdold, fun hc => hkdk hc.2⟩
    · intro e hemem
      obtain ⟨ev, ek⟩ := e
      obtain ⟨hold, hne⟩ := (indexDelete_mem j _ k ev ek).mp hemem
      obtain ⟨kd, hkd, h1, h2⟩ := jbwd (ev, ek) hold
      dsimp only at h1 h2
      have hekk : ¬ (ek = k) := by
        intro hekk
        subst hekk
        have hkdval : kd.2 = dd := by
          obtain ⟨k1, d1⟩ := kd
          dsimp only at h1
          subst h1
          exact nodup_keys_unique s.rows hnd ek d1 dd hkd hddmem
        apply hne
        constructor
        · rw [h2, hkdval]
        · rfl
      exact ⟨kd, (hmemrow kd).mpr ⟨hkd, by rw [← h1]; exact hekk⟩, h1, h2⟩

theorem strongInv_replace (s : TableState) (k : StorageKey) (d : Doc)
    (s1 : TableState) (h : tableReplace s k d = .ok s1)
    (hs : StrongInv s)
    (hpres : ∀ d1, validateConstraints s.info d = .ok d1 →
      ∀ ix ∈ s.indexes, (getByField d1 ix.info.path).isSome) :
    StrongInv s1 := by
  obtain ⟨d1, old, idxs1, hval, hget, hdel, hrep, hshape⟩ :=
    tableReplace_ok_inv s k d s1 h
  obtain ⟨holdpres, hidxs1⟩ := deleteIndexes_ok_char old k s.indexes idxs1 hdel
  have hpres1 : ∀ ix ∈ idxs1, (getByField d1 ix.info.path).isSome := by
    intro ix hix1
    rw [hidxs1] at hix1
    obtain ⟨j, hj, rfl⟩ := List.mem_map.mp hix1
    exact hpres d1 hval j hj
  have hchar := replaceIndexes_ok_char d1 k idxs1 s1.indexes hpres1 hrep
  have hrows : s1.rows = storePut s.rows k d1 := by rw [hshape]
  obtain ⟨hnd, hix⟩ := hs
  have holdm : (k, old) ∈ s.rows := storeGet_some_mem _ _ _ hget
  have hkeys : s1.rows.map Prod.fst = s.rows.map Prod.fst := by
    rw [hrows]
    exact storePut_existing_keys s.rows k d1 old holdm
  have hmemrow : ∀ x dd1, (x, dd1) ∈ s1.rows ↔
      (x = k ∧ dd1 = d1) ∨ ((x, dd1) ∈ s.rows ∧ ¬ (x = k)) := by
    intro x dd1
    rw [hrows]
    exact storePut_existing_mem s.rows k d1 old holdm x dd1
  constructor
  · rw [hkeys]
    exact hnd
  · intro ix hixmem
    rw [hchar, hidxs1, List.map_map] at hixmem
    obtain ⟨j, hj, rfl⟩ := List.mem_map.mp hixmem
    obtain ⟨jnd, jfwd, jbwd⟩ := hix j hj
    have hkdel : ∀ ev, (ev, k) ∉
        (indexDelete j (pathValueOf old j.info.path) k).entries := by
      intro ev hmem
      obtain ⟨hold2, hne⟩ := (indexDelete_mem j _ k ev k).mp hmem
      obtain ⟨kd, hkd, h1, h2⟩ := jbwd (ev, k) hold2
      dsimp only at h1 h2
      obtain ⟨k1, dd1⟩ := kd
      dsimp only at h1 h2
      subst h1
      have : dd1 = old := nodup_keys_unique s.rows hnd k dd1 old hkd holdm
      subst this
      exact hne ⟨h2, rfl⟩
    refine ⟨?_, ?_, ?_⟩
    · show ((((indexDelete j (pathValueOf old j.info.path) k).entries ++
        [(pathValueOf d1 j.info.path, k)]).map Prod.snd)).Nodup
      rw [List.map_append]
      simp only [List.map_cons, List.map_nil]
      rw [List.nodup_append]
      refine ⟨(List.Sublist.map Prod.snd
          (List.filter_sublist j.entries)).nodup jnd,
        List.nodup_singleton k, ?_⟩
      intro a ha hak
      rw [List.mem_singleton] at hak
      subst hak
      obtain ⟨e, he, hes⟩ := List.mem_map.mp ha
      obtain ⟨ev, ek⟩ := e
      dsimp only at hes
      subst hes
      exact hkdel ev he
    · intro kd hkd
      obtain ⟨k1, dd1⟩ := kd
      rcases (hmemrow k1 dd1).mp hkd with ⟨he1, he2⟩ | ⟨hin, hne⟩
      · rw [he1, he2]
        show _ ∈ (indexDelete j (pathValueOf old j.info.path) k).entries ++
          [(pathValueOf d1 j.info.path, k)]
        exact List.mem_append_right _ (List.mem_singleton.mpr rfl)
      · show _ ∈ (indexDelete j (pathValueOf old j.info.path) k).entries ++
          [(pathValueOf d1 j.info.path, k)]
        apply List.mem_append_left
        exact (indexDelete_mem j _ k _ _).mpr
          ⟨jfwd (k1, dd1) hin, fun hc => hne hc.2⟩
    · intro e hemem
      obtain ⟨ev, ek⟩ := e
      have hemem2 : (ev, ek) ∈
          (indexDelete j (pathValueOf old j.info.path) k).entries ++
          [(pathValueOf d1 j.info.path, k)] := hemem
      rcases List.mem_append.mp hemem2 with hF | hnew
      · obtain ⟨hold2, hne⟩ := (indexDelete_mem j _ k ev ek).mp hF
        obtain ⟨kd, hkd, h1, h2⟩ := jbwd (ev, ek) hold2
        obtain ⟨k1, dd1⟩ := kd
        dsimp only at h1 h2
        have hk1 : ¬ (k1 = k) := by
          intro hk1e
          have holdm1 : (k1, old) ∈ s.rows := by
            rw [hk1e]
            exact holdm
          have hdd : dd1 = old :=
            nodup_keys_unique s.rows hnd k1 dd1 old hkd holdm1
          exact hne ⟨by rw [h2, hdd], by rw [h1, hk1e]⟩
        exact ⟨(k1, dd1), (hmemrow k1 dd1).mpr (Or.inr ⟨hkd, hk1⟩), h1, h2⟩
      · rw [List.mem_singleton] at hnew
        injection hnew with h1 h2
        exact ⟨(k, d1), (hmemrow k d1).mpr (Or.inl ⟨rfl, rfl⟩), h2, h1⟩

theorem replaceIndexes_infos (d : Doc) (k : StorageKey) :
    ∀ (idxs idxs1 : List IndexState), replaceIndexes d k idxs = .ok idxs1 →
    idxs1.map (fun ix => ix.info) = idxs.map (fun ix => ix.info) := by
  intro idxs
  induction idxs with
  | nil =>
    intro idxs1 h
    injection h with h2
    subst h2
    rfl
  | cons ix rest ih =>
    intro idxs1 h
    rw [replaceIndexes] at h
    cases hg : getByField d ix.info.path with
    | none =>
      rw [hg] at h
      dsimp only at h
      cases hr : replaceIndexes d k rest with
      | error e => rw [hr] at h; cases h
      | ok rest1 =>
        rw [hr] at h
        injection h with h2
        subst h2
        rw [List.map_cons, List.map_cons, ih rest1 hr]
    | some v =>
      rw [hg] at h
      dsimp only at h
      cases hs1 : indexSet ix v k with
      | error e => rw [hs1] at h; cases h
      | ok ix1 =>
        rw [hs1] at h
        dsimp only at h
        cases hr : replaceIndexes d k rest with
        | error e => rw [hr] at h; cases h
        | ok rest1 =>
          rw [hr] at h
          injection h with h2
          subst h2
          have hinfo : ix1.info = ix.info := by
            rw [indexSet] at hs1
            split at hs1
            · cases hs1
            · injection hs1 with h3
              subst h3
              rfl
          rw [List.map_cons, List.map_cons, hinfo, ih rest1 hr]

theorem applyOp_shape (s : TableState) (op : TableOp) :
    (applyOp s op).info = s.info ∧
    (applyOp s op).indexes.map (fun ix => ix.info) =
      s.indexes.map (fun ix => ix.info) := by
  cases op with
  | ins d =>
    dsimp only [applyOp]
    cases h : tableInsert s d with
    | error e => exact ⟨rfl, rfl⟩
    | ok r =>
      obtain ⟨k1, s1⟩ := r
      obtain ⟨hro, d1, seq1, hval, hkey, hget, hidx, hshape⟩ :=
        tableInsert_ok_inv s d k1 s1 h
      refine ⟨by rw [hshape], ?_⟩
      rw [insertIndexes_ok_char d1 k1 s.indexes s1.indexes hidx, List.map_map]
      rfl
  | rep k d =>
    dsimp only [applyOp]
    cases h : tableReplace s k d with
    | error e => exact ⟨rfl, rfl⟩
    | ok s1 =>
      obtain ⟨d1, old, idxs1, hval, hget, hdel, hrep, hshape⟩ :=
        tableReplace_ok_inv s k d s1 h
      obtain ⟨_, hidxs1⟩ := deleteIndexes_ok_char old k s.indexes idxs1 hdel
      refine ⟨by rw [hshape], ?_⟩
      rw [replaceIndexes_infos d1 k idxs1 s1.indexes hrep, hidxs1,
        List.map_map]
      rfl
  | del k =>
    dsimp only [applyOp]
    cases h : tableDelete s k with
    | error e => exact ⟨rfl, rfl⟩
    | ok s1 =>
      obtain ⟨dd, hget, hdel, hshape⟩ := tableDelete_ok_inv s k s1 h
      obtain ⟨_, hidxs1⟩ := deleteIndexes_ok_char dd k s.indexes
        s1.indexes hdel
      refine ⟨by rw [hshape], ?_⟩
      rw [hidxs1, List.map_map]
      rfl

theorem strongInv_applyOp (s : TableState) (op : TableOp)
    (hs : StrongInv s)
    (hrep : ∀ k dr, op = TableOp.rep k dr →
      ∀ d1, validateConstraints s.info dr = .ok d1 →
        ∀ p ∈ s.indexes.map (fun ix => ix.info.path),
          (getByField d1 p).isSome) :
    StrongInv (applyOp s op) := by
  cases op with
  | ins d =>
    dsimp only [applyOp]
    cases h : tableInsert s d with
    | error e => exact hs
    | ok r =>
      obtain ⟨k1, s1⟩ := r
      exact strongInv_insert s d k1 s1 h hs
  | rep k d =>
    dsimp only [applyOp]
    cases h : tableReplace s k d with
    | error e => exact hs
    | ok s1 =>
      apply strongInv_replace s k d s1 h hs
      intro d1 hval ix hix
      exact hrep k d rfl d1 hval ix.info.path
        (List.mem_map_of_mem _ hix)
  | del k =>
    dsimp only [applyOp]
    cases h : tableDelete s k with
    | error e => exact hs
    | ok s1 => exact strongInv_delete s k s1 h hs

theorem runOps_strongInv (ops : List TableOp) : ∀ (s : TableState),
    StrongInv s →
    (∀ op ∈ ops, ∀ k dr, op = TableOp.rep k dr →
      ∀ d1, validateConstraints s.info dr = .ok d1 →
        ∀ p ∈ s.indexes.map (fun ix => ix.info.path),
          (getByField d1 p).isSome) →
    StrongInv (runOps s ops) := by
  induction ops with
  | nil =>
    intro s hs _
    exact hs
  | cons op rest ih =>
    intro s hs hrep
    rw [runOps]
    obtain ⟨hinfo, hinfos⟩ := applyOp_shape s op
    have hpaths : (applyOp s op).indexes.map (fun ix => ix.info.path) =
        s.indexes.map (fun ix => ix.info.path) := by
      have h2 := congrArg (List.map (fun i : IndexInfo => i.path)) hinfos
      rw [List.map_map, List.map_map] at h2
      exact h2
    apply ih (applyOp s op)
    · exact strongInv_applyOp s op hs
        (fun k dr hop => hrep op (List.mem_cons_self op rest) k dr hop)
    · intro op2 hop2 k dr hop d1 hval p hp
      apply hrep op2 (List.mem_cons_of_mem op hop2) k dr hop d1 ?_ p ?_
      · rw [← hinfo]
        exact hval
      · rw [← hpaths]
        exact hp

theorem claimInv_of_strongInv (s : TableState) (hs : StrongInv s) :
    claimIndexInv s := by
  intro ix hix
  obtain ⟨_, hfwd, hbwd⟩ := hs.2 ix hix
  refine ⟨hfwd, ?_⟩
  intro e he
  obtain ⟨kd, hkd, h1, _⟩ := hbwd e he
  exact ⟨kd, hkd, h1.symm⟩

theorem strongInv_empty (info : TableInfo) (idxInfos : List IndexInfo) :
    StrongInv (emptyTable info idxInfos) := by
  constructor
  · exact List.nodup_nil
  · intro ix hix
    dsimp only [emptyTable] at hix
    obtain ⟨i, hi, rfl⟩ := List.mem_map.mp hix
    refine ⟨List.nodup_nil, ?_, ?_⟩
    · intro kd hkd
      exact absurd hkd (List.not_mem_nil kd)
    · intro e he
      exact absurd he (List.not_mem_nil e)

/-- C1 (amended): starting from a fresh table, after any sequence of
inserts, replaces and deletes the index consistency invariant holds,
provided every replace whose document passes constraint validation defines
every indexed path in the validated document (failed operations roll
back). Without that proviso the literal claim is false, see the
counterexample. -/
theorem c1_index_consistency (info : TableInfo)
    (idxInfos : List IndexInfo) (ops : List TableOp)
    (hrep : ∀ op ∈ ops, ∀ k dr, op = TableOp.rep k dr →
      ∀ d1, validateConstraints info dr = .ok d1 →
        ∀ i ∈ idxInfos, (getByField d1 i.path).isSome) :
    claimIndexInv (runOps (emptyTable info idxInfos) ops) := by
  apply claimInv_of_strongInv
  apply runOps_strongInv ops (emptyTable info idxInfos)
    (strongInv_empty info idxInfos)
  intro op hop k dr hopeq d1 hval p hp
  have hp2 : p ∈ idxInfos.map (fun i => i.path) := by
    dsimp only [emptyTable] at hp
    rw [List.map_map] at hp
    exact hp
  obtain ⟨i, hi, rfl⟩ := List.mem_map.mp hp2
  exact hrep op hop k dr hopeq d1 hval i hi

/-- C1 counterexample to the literal claim: on a table with one index on
path a, inserting a document with field a and then replacing it by a
document without field a succeeds but leaves a stale index entry whose
value no longer matches the stored document, so the invariant fails. -/
theorem c1_counterexample :
    ¬ claimIndexInv (runOps
      (emptyTable ⟨false, []⟩ [⟨"a", false⟩])
      [TableOp.ins [("a", Value.vint 1)],
       TableOp.rep (StorageKey.docid 1) [("b", Value.vint 2)]]) := by
  decide

theorem c1_index_consistency_witness :
    claimIndexInv (runOps
      (emptyTable ⟨false, []⟩ [⟨"a", false⟩])
      [TableOp.ins [("a", Value.vint 1)],
       TableOp.rep (StorageKey.docid 1) [("a", Value.vint 2)]]) := by
  apply c1_index_consistency
  intro op hop k dr hopeq
  rcases List.mem_cons.mp hop with rfl | hop2
  · cases hopeq
  rcases List.mem_cons.mp hop2 with rfl | hop3
  · injection hopeq with h1 h2
    subst h1
    subst h2
    intro d1 hval i hi
    have hok : validateConstraints (⟨false, []⟩ : TableInfo)
        [("a", Value.vint 2)] = .ok [("a", Value.vint 2)] := by decide
    rw [hok] at hval
    injection hval with h3
    subst h3
    rcases List.mem_cons.mp hi with rfl | hi2
    · decide
    · exact absurd hi2 (List.not_mem_nil i)
  · exact absurd hop3 (List.not_mem_nil op)

end Genji
